import Mathlib

/-!
Verification of the `randperm-crt` repository (src/crt.rs and src/lib.rs).

The code is shallowly embedded: `u64` values become `Nat` (the type carries
no overflow; overflow-relevant spots use explicit `2 ^ 64` bounds), `i128`
values become `Int` with truncating division `Int.tdiv` / `Int.tmod` as in
Rust, fallible code returns `Option`, and the two `while` loops of the
source (trial division in `FactoredInteger::new`, extended Euclid in
`mod_inverse`) are written with an explicit iteration budget (`fuel`);
`none` from a fueled loop means the loop did not exit within the budget,
and termination theorems show the budget chosen at each call site is never
exhausted on the function's real domain.
-/

set_option maxHeartbeats 1000000

namespace RandpermCrt

/-! ## src/crt.rs -/

/-- Rust `u64::checked_mul`: `none` when the product does not fit in 64 bits. -/
def checkedMul (a b : Nat) : Option Nat :=
  if a * b < 2 ^ 64 then some (a * b) else none

/-- `moduli.iter().try_fold(1u64, |a, &b| a.checked_mul(b))` in
`chinese_remainder` (src/crt.rs). -/
def tryFoldMul : Nat → List Nat → Option Nat
  | a, [] => some a
  | a, b :: l =>
    match checkedMul a b with
    | none => none
    | some c => tryFoldMul c l

/-- The `while mn.1 != 0` loop of `mod_inverse` (src/crt.rs), one variable per
tuple component: `r0, r1` are `mn.0, mn.1` and `x0, x1` are `xy.0, xy.1`.
Rust `i128` division truncates toward zero, hence `Int.tdiv`.  The loop always
terminates because `|mn.1|` strictly decreases; `fuel` bounds the iteration
count and the call site passes a budget that is provably sufficient. -/
def egcdGo : Nat → Int → Int → Int → Int → Int × Int × Int × Int
  | 0, r0, r1, x0, x1 => (r0, r1, x0, x1)
  | fuel + 1, r0, r1, x0, x1 =>
    if r1 = 0 then (r0, r1, x0, x1)
    else egcdGo fuel r1 (r0 - r0.tdiv r1 * r1) x1 (x0 - r0.tdiv r1 * x1)

/-- `mod_inverse` from src/crt.rs.  The returned value is
`(xy.0 + m) % m` with Rust's truncating `%` on `i128`, i.e. `Int.tmod`. -/
def mod_inverse (a m : Int) : Option Int :=
  let s := egcdGo (a.natAbs + 1) m a 0 1
  if 1 < s.1 then none else some ((s.2.2.1 + m).tmod m)

/-- The accumulation loop of `chinese_remainder` (src/crt.rs): for each
`(remainder, modulus)` pair, `result += remainder * partial_product * inverse`,
in `i128` arithmetic modelled by `Int`; `none` is Rust's `?` on a failing
`mod_inverse`. -/
def crtLoop (M : Int) : List (Nat × Nat) → Int → Option Int
  | [], result => some result
  | (r, m) :: l, result =>
    match mod_inverse (M.tdiv (m : Int)) (m : Int) with
    | none => none
    | some inv => crtLoop M l (result + (r : Int) * M.tdiv (m : Int) * inv)

/-- Rust `x as u64` applied to an `i128` value: two's-complement truncation,
i.e. the value modulo `2 ^ 64` (Lean's `Int` `%` is `Int.emod`, which is
nonnegative for this positive modulus, exactly the bit pattern reading). -/
def toU64 (x : Int) : Nat := (x % (2 ^ 64 : Int)).toNat

/-- `chinese_remainder` from src/crt.rs. -/
def chinese_remainder (remainders moduli : List Nat) : Option Nat :=
  if remainders.length ≠ moduli.length then none
  else
    match tryFoldMul 1 moduli with
    | none => none
    | some M =>
      match crtLoop (M : Int) (remainders.zip moduli) 0 with
      | none => none
      | some result => some (toU64 (result.tmod (M : Int)))

/-- All `i128` intermediate values produced by the accumulation loop of
`chinese_remainder` on the given pairs starting from accumulator `acc`:
for each step the two partial products `remainder * partial_product`,
`remainder * partial_product * inverse`, and the running sum after adding
the term.  Used to state that no intermediate leaves the `i128` range. -/
def crtIntermediates (M : Int) : List (Nat × Nat) → Int → List Int
  | [], _ => []
  | (r, m) :: l, acc =>
    match mod_inverse (M.tdiv (m : Int)) (m : Int) with
    | none => []
    | some inv =>
      (r : Int) * M.tdiv (m : Int) ::
      (r : Int) * M.tdiv (m : Int) * inv ::
      (acc + (r : Int) * M.tdiv (m : Int) * inv) ::
      crtIntermediates M l (acc + (r : Int) * M.tdiv (m : Int) * inv)

/-! ## src/lib.rs: `FactoredInteger` -/

/-- The `while n % q == 0 { counter += 1; n /= q }` trial-division loop of
`FactoredInteger::new` (src/lib.rs); with `q = 2` it also models the
`trailing_zeros`/shift stripping of the factor 2, which agrees with this loop
for every `n ≥ 1`.  `none` means the loop did not exit within `fuel`
iterations; for `n = 0` the guard `n % q == 0` never becomes false, so the
source loop never exits (and the `n = 0` shift by `trailing_zeros() = 64`
already overflows), which `none` models for every budget. -/
def stripGo (q : Nat) : Nat → Nat → Option (Nat × Nat)
  | 0, n => if n % q = 0 then none else some (0, n)
  | fuel + 1, n =>
    if n % q = 0 then
      match stripGo q fuel (n / q) with
      | none => none
      | some (c, r) => some (c + 1, r)
    else some (0, n)

/-- The `for p in (3..u8::MAX).step_by(2)` loop of `FactoredInteger::new`
(src/lib.rs): `it` counts the remaining trial divisors (starting from 126 of
them: `p = 3, 5, ..., 253`), `p` is the current divisor, `n` the residual and
`acc` the accumulated factor pairs.  Inner stripping gets fuel 64, enough for
any `u64` residual. -/
def oddLoop : Nat → Nat → Nat → List (Nat × Nat) → Option (Nat × List (Nat × Nat))
  | 0, _, n, acc => some (n, acc)
  | it + 1, p, n, acc =>
    match stripGo p 64 n with
    | none => none
    | some (c, r) =>
      let acc' := if c ≠ 0 then acc ++ [(p, c)] else acc
      if r = 1 then some (r, acc')
      else oddLoop it (p + 2) r acc'

/-- The `FactoredInteger` struct of src/lib.rs. -/
structure FactoredInteger where
  factors : List (Nat × Nat)
deriving DecidableEq, Repr

/-- `FactoredInteger::new` (src/lib.rs).  The outer `Option` is the
termination layer of the fueled loops (`none` = the source constructor does
not return normally, which happens exactly for `n = 0`); the inner `Option`
is the source's return value: `none` when the residual after all trial
divisors is not 1. -/
def FactoredInteger.new (n : Nat) : Option (Option FactoredInteger) :=
  match stripGo 2 64 n with
  | none => none
  | some (c2, r2) =>
    let acc := if c2 ≠ 0 then [(2, c2)] else []
    match oddLoop 126 3 r2 acc with
    | none => none
    | some (r, fs) => some (if r = 1 then some ⟨fs⟩ else none)

/-! ## src/lib.rs: `RandomPermutation` and its construction -/

/-- The `RandomPermutation` struct of src/lib.rs. -/
structure RandomPermutation where
  num_points : Nat
  sub_perms : List (List Nat)
deriving DecidableEq, Repr

/-- Model of the external RNG collaborator `rand::Rng::random_range(a..b)`:
the RNG itself is a stream `g : Nat → Nat` of raw draws consumed one per
call, and a draw `raw` is mapped into the half-open range `[a, b)`.  Every
value in `[a, b)` is reached by some `raw`, so quantifying over all streams
covers every run of the source. -/
def randomRange (a b raw : Nat) : Nat := a + raw % (b - a)

/-- Rust `Vec::swap(a, b)` on a list (identity when an index is out of
range; the source only swaps in-range indices). -/
def swapL (l : List Nat) (a b : Nat) : List Nat :=
  match l.get? a, l.get? b with
  | some x, some y => (l.set a y).set b x
  | _, _ => l

/-- The Fisher–Yates pass `for a in 0..len { let b = rng.random_range(a..len);
v.swap(a, b) }` used twice in `RandomPermutation::with_rng` (src/lib.rs).
`c0` is the position of this pass's first draw in the RNG stream; `fuel`
counts remaining loop steps (started at `len`). -/
def fyFrom (g : Nat → Nat) (c0 len : Nat) : Nat → Nat → List Nat → List Nat
  | 0, _, v => v
  | fuel + 1, a, v =>
    fyFrom g c0 len fuel (a + 1) (swapL v a (randomRange a len (g (c0 + a))))

/-- A full Fisher–Yates shuffle of `v`, drawing `v.length` values starting at
stream position `c0`. -/
def fisherYates (g : Nat → Nat) (c0 : Nat) (v : List Nat) : List Nat :=
  fyFrom g c0 v.length v.length 0 v

/-- The `(0..num_prime_powers).map(|i| ...)` loop of
`RandomPermutation::with_rng` building one shuffled table `(0..pk)` per
prime power, threading the RNG stream position `c`. -/
def buildSubs (g : Nat → Nat) : Nat → List Nat → List (List Nat)
  | _, [] => []
  | c, pk :: l => fisherYates g c (List.range pk) :: buildSubs g (c + pk) l

/-- `RandomPermutation::with_rng` (src/lib.rs).  The RNG is the raw-draw
stream `g`; the outer `Option` is the termination layer inherited from
`FactoredInteger.new`. -/
def RandomPermutation.with_rng (n : Nat) (g : Nat → Nat) :
    Option (Option RandomPermutation) :=
  match FactoredInteger.new n with
  | none => none
  | some none => some none
  | some (some f) =>
    let k := f.factors.length
    let order := fisherYates g 0 (List.range k)
    let pks := order.map fun i => (f.factors.getD i (0, 0)).1 ^ (f.factors.getD i (0, 0)).2
    some (some ⟨n, buildSubs g k pks⟩)

/-- The `fold` of `RandomPermutation::nth` (src/lib.rs) producing the
remainder vector: `rem.push(perm[(n % pk) as usize]); n /= pk` for each
sub-permutation in stored order (`rem` is the accumulator, `n` the mutated
index). -/
def remsGo : List (List Nat) → List Nat → Nat → List Nat × Nat
  | [], rem, n => (rem, n)
  | t :: l, rem, n => remsGo l (rem ++ [t.getD (n % t.length) 0]) (n / t.length)

/-- The moduli vector of `RandomPermutation::nth`: the sub-permutation
lengths. -/
def RandomPermutation.moduli (P : RandomPermutation) : List Nat :=
  P.sub_perms.map List.length

/-- `RandomPermutation::nth` (src/lib.rs).  The source wraps the
`chinese_remainder` call in `.unwrap()` inside `Some(...)`; here the `Option`
from `chinese_remainder` propagates instead, and the unreachability of its
`none` branch for constructed permutations is proved separately (claim C9). -/
def RandomPermutation.nth (P : RandomPermutation) (n : Nat) : Option Nat :=
  if P.num_points ≤ n then none
  else chinese_remainder (remsGo P.sub_perms [] n).1 P.moduli

/-- The `Inverse` borrowing view (src/lib.rs); the borrow is modelled by
holding the base permutation value. -/
structure Inverse where
  perm : RandomPermutation
deriving DecidableEq, Repr

/-- `RandomPermutation::inverse` (src/lib.rs). -/
def RandomPermutation.inverse (P : RandomPermutation) : Inverse := ⟨P⟩

/-- `Inverse::num_points` delegates to the base permutation. -/
def Inverse.num_points (I : Inverse) : Nat := I.perm.num_points

/-- `Inverse::nth` (src/lib.rs): fold over the sub-permutations in reverse
order, `idx * pk + pos` where `pos` is the position of `n % pk` in the
table.  The source unwraps the `position` search; `List.findIdx` returns the
list length when the value is absent, and the search is proved to always
succeed for constructed permutations (claim C9). -/
def Inverse.nth (I : Inverse) (n : Nat) : Option Nat :=
  if I.num_points ≤ n then none
  else some (I.perm.sub_perms.reverse.foldl
    (fun idx t => idx * t.length + t.findIdx (fun a => a == n % t.length)) 0)

/-! ## src/lib.rs: iterator and composition -/

/-- `PermutationIter` (src/lib.rs): a cursor over any `Permutation`-capable
value; the borrowed permutation enters only through its `nth` method, kept
here as the function `nthFun`. -/
structure PermutationIter where
  nthFun : Nat → Option Nat
  idx : Nat

/-- `Permutation::iter` (src/lib.rs): a fresh cursor at index 0. -/
def Permutation.iter (f : Nat → Option Nat) : PermutationIter := ⟨f, 0⟩

/-- `Iterator::next` for `PermutationIter`: evaluate `nth` at the current
index, then increment the index. -/
def PermutationIter.next (it : PermutationIter) : Option Nat × PermutationIter :=
  (it.nthFun it.idx, ⟨it.nthFun, it.idx + 1⟩)

/-- The overridden `Iterator::nth` for `PermutationIter` (src/lib.rs):
`self.idx += n; self.perm.nth(self.idx)` — a single index addition and one
`nth` evaluation. -/
def PermutationIter.nthSkip (it : PermutationIter) (n : Nat) : Option Nat × PermutationIter :=
  (it.nthFun (it.idx + n), ⟨it.nthFun, it.idx + n⟩)

/-- `j` applications of `Iterator::next`, discarding the produced values. -/
def PermutationIter.advance (it : PermutationIter) : Nat → PermutationIter
  | 0 => it
  | j + 1 => (PermutationIter.advance it j).next.2

/-- The `Composition` borrowing view (src/lib.rs). -/
structure Composition where
  perms : List RandomPermutation
deriving DecidableEq, Repr

/-- `Composition::new` (src/lib.rs): fails on an empty slice or mismatched
`num_points`. -/
def Composition.new (ps : List RandomPermutation) : Option Composition :=
  match ps with
  | [] => none
  | p0 :: _ => if ps.all fun p => p.num_points == p0.num_points then some ⟨ps⟩ else none

/-- `Composition::num_points` (src/lib.rs) reads `perms[0]`; the empty case
is unreachable for values built by `Composition.new`. -/
def Composition.num_points (c : Composition) : Nat :=
  match c.perms with
  | [] => 0
  | p :: _ => p.num_points

/-- `Composition::nth` (src/lib.rs): `try_fold` threading the index through
each member's `nth`, short-circuiting on the first `none`. -/
def Composition.nth (c : Composition) (n : Nat) : Option Nat :=
  c.perms.foldlM (fun m p => p.nth m) n

/-! ## Proof-side helper definitions -/

/-- The term `remainder * partial_product * inverse` contributed by one
`(remainder, modulus)` pair to the `chinese_remainder` accumulator. -/
def crtTerm (M : Int) (p : Nat × Nat) : Int :=
  (p.1 : Int) * M.tdiv (p.2 : Int) * ((mod_inverse (M.tdiv (p.2 : Int)) (p.2 : Int)).getD 0)

/-- Mixed-radix digits of `n` for the list of radices `lens`, least
significant first: exactly the successive `n % pk` / `n /= pk` values taken
by `RandomPermutation::nth`. -/
def mixedDigits : List Nat → Nat → List Nat
  | [], _ => []
  | l :: ls, n => n % l :: mixedDigits ls (n / l)

/-- Recomposition of mixed-radix digits (inverse of `mixedDigits`): the
value accumulated by the reverse-order fold of `Inverse::nth`. -/
def unDigits : List Nat → List Nat → Nat
  | _, [] => 0
  | [], _ :: _ => 0
  | l :: ls, d :: ds => d + l * unDigits ls ds

/-- The remainder vector of `RandomPermutation::nth`: each sub-permutation's
entry at the corresponding mixed-radix digit of `n`. -/
def lookupDigits : List (List Nat) → Nat → List Nat
  | [], _ => []
  | t :: l, n => t.getD (n % t.length) 0 :: lookupDigits l (n / t.length)

/-- The position vector of `Inverse::nth`: for each sub-permutation, the
index of `n % pk` in its table. -/
def invPositions (ts : List (List Nat)) (n : Nat) : List Nat :=
  ts.map fun t => t.findIdx fun a => a == n % t.length

/-- The well-formedness invariant of a constructed `RandomPermutation`
(claim C5): every sub-permutation is a bijection table on `[0, len)`, the
lengths are powers of pairwise-distinct primes (so pairwise coprime), and
their product is `num_points`. -/
def PermWf (P : RandomPermutation) : Prop :=
  (∀ t ∈ P.sub_perms, t.Perm (List.range t.length)) ∧
  (∃ fs : List (Nat × Nat),
    fs.Pairwise (fun a b => a.1 ≠ b.1) ∧
    (∀ pe ∈ fs, pe.1.Prime ∧ 1 ≤ pe.2) ∧
    P.moduli = fs.map fun pe => pe.1 ^ pe.2) ∧
  P.moduli.prod = P.num_points

/-- A concrete RNG stream (all draws 0, so every Fisher–Yates swap is the
identity), used to instantiate theorems on concrete inputs. -/
def gZero : Nat → Nat := fun _ => 0

/-- The permutation produced by `with_rng 12 gZero`: factors `2^2 * 3`, both
sub-permutation tables left as identity by the all-zero draw stream. -/
def P12 : RandomPermutation := ⟨12, [[0, 1, 2, 3], [0, 1, 2]]⟩

/-! ## Extended Euclid: correctness of `mod_inverse` -/

lemma natAbs_sub_of_mul_nonpos {u v : Int} (h : u * v ≤ 0) :
    (u - v).natAbs = u.natAbs + v.natAbs := by
  rcases le_or_lt 0 u with hu | hu <;> rcases le_or_lt 0 v with hv | hv
  · rcases mul_eq_zero.1 (le_antisymm h (mul_nonneg hu hv)) with h0 | h0 <;> omega
  · omega
  · omega
  · exact absurd (mul_pos_of_neg_of_neg hu hv) (not_lt.2 h)

/-- Loop invariant of the extended-Euclid loop: starting from a state whose
Bézout data relates to the inputs `(m, aa)`, the loop reaches a state with
second component 0 whose first component is a greatest common divisor of
`m` and `aa` and whose `x0` is a Bézout coefficient bounded by `m`. -/
lemma egcdGo_spec {m aa : Int} (hm : 1 ≤ m) :
    ∀ fuel r0 r1 x0 x1,
      (r1.natAbs < fuel) →
      1 ≤ r0 → 0 ≤ r1 →
      x0 * x1 ≤ 0 →
      (x1.natAbs : Int) * r0 + (x0.natAbs : Int) * r1 = m →
      (x0.natAbs : Int) ≤ m →
      r0 ≡ x0 * aa [ZMOD m] →
      r1 ≡ x1 * aa [ZMOD m] →
      (∀ d : Int, d ∣ r0 → d ∣ r1 → d ∣ m ∧ d ∣ aa) →
      (∀ d : Int, d ∣ m → d ∣ aa → d ∣ r0 ∧ d ∣ r1) →
      ∃ g x0' x1', egcdGo fuel r0 r1 x0 x1 = (g, 0, x0', x1') ∧
        1 ≤ g ∧ (x0'.natAbs : Int) ≤ m ∧
        g ≡ x0' * aa [ZMOD m] ∧
        g ∣ m ∧ g ∣ aa ∧
        (∀ d : Int, d ∣ m → d ∣ aa → d ∣ g) := by
  intro fuel
  induction fuel with
  | zero =>
    intro r0 r1 x0 x1 hfuel _ _ _ _ _ _ _ _ _
    exact absurd hfuel (by omega)
  | succ fuel ih =>
    intro r0 r1 x0 x1 hfuel hr0 hr1 hsign hid hbound hc0 hc1 hdvd1 hdvd2
    by_cases h1 : r1 = 0
    · refine ⟨r0, x0, x1, by simp [egcdGo, h1], hr0, hbound, hc0, ?_, ?_, ?_⟩
      · exact (hdvd1 r0 dvd_rfl (h1 ▸ dvd_zero r0)).1
      · exact (hdvd1 r0 dvd_rfl (h1 ▸ dvd_zero r0)).2
      · intro d hdm hda; exact (hdvd2 d hdm hda).1
    · have hr1p : 1 ≤ r1 := by omega
      set q := r0.tdiv r1 with hq
      have hqnn : 0 ≤ q := Int.tdiv_nonneg (by omega) (by omega)
      have hrest : r0 - q * r1 = r0.tmod r1 := by rw [Int.tmod_def]; ring
      have h2nn : 0 ≤ r0 - q * r1 := hrest ▸ Int.tmod_nonneg _ (by omega)
      have h2lt : r0 - q * r1 < r1 := hrest ▸ Int.tmod_lt_of_pos _ (by omega)
      have hfuel' : (r0 - q * r1).natAbs < fuel := by
        have h1n : (r0 - q * r1).natAbs < r1.natAbs := by
          generalize r0 - q * r1 = r2 at h2nn h2lt
          omega
        omega
      have hqx : x0 * (q * x1) ≤ 0 := by
        have h5 : q * (x0 * x1) ≤ q * 0 := mul_le_mul_of_nonneg_left hsign hqnn
        calc x0 * (q * x1) = q * (x0 * x1) := by ring
        _ ≤ 0 := by simpa using h5
      have habs : ((x0 - q * x1).natAbs : Int) =
          (x0.natAbs : Int) + q * (x1.natAbs : Int) := by
        rw [natAbs_sub_of_mul_nonpos hqx]
        push_cast [Int.natAbs_mul]
        rw [abs_of_nonneg hqnn]
      have hsign' : x1 * (x0 - q * x1) ≤ 0 := by
        have h5 : q * (x1 * x1) ≥ 0 := mul_nonneg hqnn (mul_self_nonneg x1)
        have h6 : x1 * (x0 - q * x1) = x0 * x1 - q * (x1 * x1) := by ring
        rw [h6]; linarith
      have hid' : ((x0 - q * x1).natAbs : Int) * r1 +
          (x1.natAbs : Int) * (r0 - q * r1) = m := by
        rw [habs]; linear_combination hid
      have hbound' : (x1.natAbs : Int) ≤ m := by
        have h5 : (x1.natAbs : Int) * 1 ≤ (x1.natAbs : Int) * r0 :=
          mul_le_mul_of_nonneg_left hr0 (by positivity)
        have h6 : 0 ≤ (x0.natAbs : Int) * r1 := by positivity
        linarith
      have hc1' : r0 - q * r1 ≡ (x0 - q * x1) * aa [ZMOD m] := by
        have h5 := hc0.sub (hc1.mul_left q)
        have h6 : (x0 - q * x1) * aa = x0 * aa - q * (x1 * aa) := by ring
        rw [h6]; exact h5
      have hdvd1' : ∀ d : Int, d ∣ r1 → d ∣ r0 - q * r1 → d ∣ m ∧ d ∣ aa := by
        intro d hd1 hd2
        have hd0 : d ∣ r0 := by
          have h5 : d ∣ (r0 - q * r1) + q * r1 := dvd_add hd2 (hd1.mul_left q)
          simpa using h5
        exact hdvd1 d hd0 hd1
      have hdvd2' : ∀ d : Int, d ∣ m → d ∣ aa → d ∣ r1 ∧ d ∣ r0 - q * r1 := by
        intro d hdm hda
        obtain ⟨h5, h6⟩ := hdvd2 d hdm hda
        exact ⟨h6, dvd_sub h5 (h6.mul_left q)⟩
      have key := ih r1 (r0 - q * r1) x1 (x0 - q * x1) hfuel' hr1p h2nn hsign'
        hid' hbound' hc1 hc1' hdvd1' hdvd2'
      have hstep : egcdGo (fuel + 1) r0 r1 x0 x1 =
          egcdGo fuel r1 (r0 - q * r1) x1 (x0 - q * x1) := by
        simp [egcdGo, h1, hq]
      rw [hstep]; exact key

/-- `mod_inverse a m` succeeds on coprime nonnegative inputs with `m ≥ 1`,
and returns the inverse of `a` in `[0, m)`. -/
lemma mod_inverse_spec {a m : Int} (hm : 1 ≤ m) (ha : 0 ≤ a)
    (hco : Int.gcd a m = 1) :
    ∃ v, mod_inverse a m = some v ∧ 0 ≤ v ∧ v < m ∧ a * v ≡ 1 [ZMOD m] := by
  obtain ⟨g, x0', x1', heq, hg1, hb, hcong, hgm, hga, -⟩ :=
    @egcdGo_spec m a hm (a.natAbs + 1) m a 0 1 (by omega) hm ha (by simp)
      (by simp) (by simpa using (by omega : (0:Int) ≤ m))
      (by simp [Int.ModEq]) (by simp [Int.ModEq]) (fun d h5 h6 => ⟨h5, h6⟩)
      (fun d h5 h6 => ⟨h5, h6⟩)
  have hgone : g = 1 := by
    have h5 : g ∣ ((a.gcd m : Nat) : Int) := Int.dvd_gcd hga hgm
    rw [hco] at h5
    rcases Int.isUnit_iff.1 (isUnit_of_dvd_one h5) with h6 | h6 <;> omega
  have hx0m : -m ≤ x0' := by omega
  have hnn : 0 ≤ x0' + m := by omega
  refine ⟨(x0' + m).tmod m, ?_, Int.tmod_nonneg _ hnn, Int.tmod_lt_of_pos _ (by omega), ?_⟩
  · unfold mod_inverse
    rw [heq, hgone]
    norm_num
  · have h7 : (x0' + m).tmod m ≡ x0' + m [ZMOD m] := by
      rw [Int.modEq_iff_dvd, Int.tmod_def]
      exact ⟨(x0' + m).tdiv m, by ring⟩
    have h8 : x0' + m ≡ x0' [ZMOD m] := by
      rw [Int.modEq_iff_dvd]
      exact ⟨-1, by ring⟩
    have h9 : a * (x0' + m).tmod m ≡ a * x0' [ZMOD m] :=
      (h7.trans h8).mul_left a
    have h10 : x0' * a ≡ 1 [ZMOD m] := by
      rw [hgone] at hcong; exact hcong.symm
    calc a * (x0' + m).tmod m ≡ a * x0' [ZMOD m] := h9
    _ = x0' * a := by ring
    _ ≡ 1 [ZMOD m] := h10

/-! ## Chinese remainder: product, bounds and coprimality helpers -/

lemma tryFoldMul_eq : ∀ (ms : List Nat) (a : Nat), (∀ m ∈ ms, 1 ≤ m) →
    a * ms.prod < 2 ^ 64 → tryFoldMul a ms = some (a * ms.prod)
  | [], a, _, _ => by simp [tryFoldMul]
  | b :: l, a, h1, h2 => by
    have hl : ∀ m ∈ l, 1 ≤ m := fun m hm => h1 m (by simp [hm])
    have hprod : 0 < l.prod := List.prod_pos fun m hm => hl m hm
    have hble : a * b ≤ a * b * l.prod := Nat.le_mul_of_pos_right _ hprod
    have hlt : a * b * l.prod < 2 ^ 64 := by
      rw [List.prod_cons] at h2; calc a * b * l.prod = a * (b * l.prod) := by ring
      _ < 2 ^ 64 := h2
    have hcheck : checkedMul a b = some (a * b) := by
      unfold checkedMul
      rw [if_pos (lt_of_le_of_lt hble hlt)]
    unfold tryFoldMul
    rw [hcheck]
    show tryFoldMul (a * b) l = some (a * (b :: l).prod)
    rw [tryFoldMul_eq l (a * b) hl hlt, List.prod_cons]
    exact congrArg some (mul_assoc a b l.prod)

lemma sum_sub_one_le : ∀ (l : List Nat), (∀ m ∈ l, 1 ≤ m) →
    (l.map fun m => m - 1).sum ≤ l.prod - 1
  | [], _ => by simp
  | m :: t, h => by
    have hm : 1 ≤ m := h m (by simp)
    have ht : ∀ x ∈ t, 1 ≤ x := fun x hx => h x (by simp [hx])
    have hP : 1 ≤ t.prod := List.prod_pos fun x hx => ht x hx
    have ih := sum_sub_one_le t ht
    obtain ⟨m', rfl⟩ : ∃ m', m = m' + 1 := ⟨m - 1, by omega⟩
    obtain ⟨P', hP'⟩ : ∃ P', t.prod = P' + 1 := ⟨t.prod - 1, by omega⟩
    simp only [List.map_cons, List.sum_cons, List.prod_cons, hP'] at ih ⊢
    have hexp : (m' + 1) * (P' + 1) = m' * P' + m' + P' + 1 := by ring
    rw [hexp]
    omega

lemma sum_term_shift : ∀ (t : List Nat) (M N : Nat), N ≤ M →
    (∀ m ∈ t, 1 ≤ m ∧ m ≤ N) →
    (t.map fun m => (m - 1) * (M - m + 1)).sum
      = (t.map fun m => (m - 1) * (N - m + 1)).sum
        + (M - N) * (t.map fun m => m - 1).sum
  | [], _, _, _, _ => by simp
  | m :: t, M, N, hMN, h => by
    obtain ⟨hm1, hmN⟩ := h m (by simp)
    have ht : ∀ x ∈ t, 1 ≤ x ∧ x ≤ N := fun x hx => h x (by simp [hx])
    have hsplit : M - m + 1 = (N - m + 1) + (M - N) := by omega
    have hdist : (m - 1) * (M - m + 1)
        = (m - 1) * (N - m + 1) + (M - N) * (m - 1) := by
      rw [hsplit, Nat.mul_add]
      ring
    simp only [List.map_cons, List.sum_cons]
    rw [hdist, sum_term_shift t M N hMN ht, Nat.mul_add]
    ring

lemma crt_sq_ineq (m N : Int) (hm : 1 ≤ m) (hN : 1 ≤ N) :
    2 * ((m - 1) * (m * N - m + 1)) + N ^ 2 + 2 * ((m * N - N) * (N - 1))
      ≤ (m * N) ^ 2 := by
  nlinarith [sq_nonneg ((m - 1) * (N - 1)), sq_nonneg (m - 1)]

/-- The key size bound on the `chinese_remainder` accumulator: twice the sum
of the per-modulus term bounds `(m - 1) * (M - m + 1)` is at most `M ^ 2`. -/
lemma sum_term_sq : ∀ (ms : List Nat), (∀ m ∈ ms, 1 ≤ m) →
    2 * (ms.map fun m => (m - 1) * (ms.prod - m + 1)).sum ≤ ms.prod ^ 2
  | [], _ => by simp
  | m :: t, h => by
    have hm : 1 ≤ m := h m (by simp)
    have ht : ∀ x ∈ t, 1 ≤ x := fun x hx => h x (by simp [hx])
    have hN : 1 ≤ t.prod := List.prod_pos fun x hx => ht x hx
    have htN : ∀ x ∈ t, 1 ≤ x ∧ x ≤ t.prod := fun x hx =>
      ⟨ht x hx, Nat.le_of_dvd hN (List.dvd_prod hx)⟩
    have hNM : t.prod ≤ m * t.prod := Nat.le_mul_of_pos_left _ hm
    have hmM : m ≤ m * t.prod := Nat.le_mul_of_pos_right _ hN
    have ih := sum_term_sq t ht
    have hshift := sum_term_shift t (m * t.prod) t.prod hNM htN
    have hsub := sum_sub_one_le t ht
    simp only [List.map_cons, List.sum_cons, List.prod_cons]
    rw [hshift]
    set S1 := (t.map fun x => x - 1).sum with hS1
    set S2 := (t.map fun x => (x - 1) * (t.prod - x + 1)).sum with hS2
    set P := t.prod with hPdef
    zify [hm, hN, hmM, hNM] at ih hsub ⊢
    have hkey := crt_sq_ineq (m : Int) (P : Int) (by exact_mod_cast hm)
      (by exact_mod_cast hN)
    have hfac : (0:Int) ≤ (m : Int) * P - P := by
      have h9 : ((P : Nat) : Int) ≤ ((m * P : Nat) : Int) := by exact_mod_cast hNM
      push_cast at h9
      linarith
    have h7 := mul_le_mul_of_nonneg_left hsub hfac
    linarith [hkey, ih, h7]

lemma coprime_list_prod {k : Nat} : ∀ {l : List Nat},
    (∀ x ∈ l, Nat.Coprime k x) → Nat.Coprime k l.prod
  | [], _ => by simp [Nat.coprime_one_right]
  | b :: l, h => by
    rw [List.prod_cons]
    exact (h b (by simp)).mul_right
      (coprime_list_prod fun x hx => h x (by simp [hx]))

lemma pairwise_coprime_prod_dvd : ∀ {ms : List Nat}, ms.Pairwise Nat.Coprime →
    ∀ {d : Int}, (∀ m ∈ ms, (m : Int) ∣ d) → ((ms.prod : Nat) : Int) ∣ d
  | [], _, d, _ => by simp
  | m :: t, h, d, hd => by
    rw [List.pairwise_cons] at h
    have h1 : (m : Int) ∣ d := hd m (by simp)
    have h2 : ((t.prod : Nat) : Int) ∣ d :=
      pairwise_coprime_prod_dvd h.2 fun x hx => hd x (by simp [hx])
    have h3 : IsCoprime (m : Int) ((t.prod : Nat) : Int) :=
      Nat.isCoprime_iff_coprime.2 (coprime_list_prod h.1)
    rw [List.prod_cons, Nat.cast_mul]
    exact h3.mul_dvd h1 h2

lemma crtLoop_acc (M : Int) : ∀ (ps : List (Nat × Nat)) (acc : Int),
    (∀ p ∈ ps, (mod_inverse (M.tdiv (p.2 : Int)) (p.2 : Int)).isSome) →
    crtLoop M ps acc = some (acc + (ps.map (crtTerm M)).sum)
  | [], acc, _ => by simp [crtLoop]
  | (r, m) :: t, acc, h => by
    obtain ⟨inv, hinv⟩ := Option.isSome_iff_exists.1 (h (r, m) (by simp))
    have ih := crtLoop_acc M t (acc + (r : Int) * M.tdiv (m : Int) * inv)
      fun p hp => h p (by simp [hp])
    simp only [crtLoop, hinv, ih, List.map_cons, List.sum_cons]
    congr 1
    simp [crtTerm, hinv]
    ring

lemma crt_split_facts {ms : List Nat} (hpos : ∀ m ∈ ms, 1 ≤ m)
    (hcop : ms.Pairwise Nat.Coprime)
    {pre post : List Nat} {m : Nat} (he : ms = pre ++ m :: post) :
    Nat.Coprime (ms.prod / m) m ∧ ∀ q ∈ pre ++ post, m ∣ ms.prod / q := by
  have hm1 : 1 ≤ m := hpos m (by simp [he])
  have hco : ∀ x ∈ pre ++ post, Nat.Coprime m x := by
    rw [he] at hcop
    rw [List.pairwise_append] at hcop
    obtain ⟨hpre, hmpost, hcross⟩ := hcop
    rw [List.pairwise_cons] at hmpost
    intro x hx
    rcases List.mem_append.1 hx with hx | hx
    · exact (hcross x hx m (by simp)).symm
    · exact hmpost.1 x hx
  have hsplit : ms.prod = m * (pre ++ post).prod := by
    rw [he, List.prod_append, List.prod_cons, List.prod_append]
    ring
  have hdivm : ms.prod / m = (pre ++ post).prod := by
    rw [hsplit, Nat.mul_div_cancel_left _ hm1]
  constructor
  · rw [hdivm]
    exact (coprime_list_prod hco).symm
  · intro q hq
    have hq1 : 1 ≤ q := by
      apply hpos q
      rw [he]
      rcases List.mem_append.1 hq with h5 | h5
      · exact List.mem_append.2 (Or.inl h5)
      · exact List.mem_append.2 (Or.inr (by simp [h5]))
    have hqms : q ∈ ms := by
      rw [he]
      rcases List.mem_append.1 hq with h5 | h5
      · exact List.mem_append.2 (Or.inl h5)
      · exact List.mem_append.2 (Or.inr (by simp [h5]))
    have hmms : m ∈ ms := by simp [he]
    have hqM : q ∣ ms.prod := List.dvd_prod hqms
    have hmM : m ∣ ms.prod := List.dvd_prod hmms
    have hcoq : Nat.Coprime m q := hco q hq
    have hmul : q * m ∣ ms.prod := by
      rw [mul_comm]
      exact hcoq.mul_dvd_of_dvd_of_dvd hmM hqM
    exact (Nat.dvd_div_iff_mul_dvd hqM).2 hmul

/-- At each position of the pair list, `mod_inverse` succeeds, its result is
a genuine modular inverse in range, and the full `chinese_remainder` term sum
is congruent to that position's remainder. -/
lemma crt_pos_facts {ps : List (Nat × Nat)} {M : Nat}
    (hMdef : M = (ps.map Prod.snd).prod)
    (hpos : ∀ p ∈ ps, 1 ≤ p.2)
    (hcop : (ps.map Prod.snd).Pairwise Nat.Coprime)
    {p : Nat × Nat} (hp : p ∈ ps) :
    ∃ inv, mod_inverse ((M : Int).tdiv (p.2 : Int)) (p.2 : Int) = some inv ∧
      0 ≤ inv ∧ inv < (p.2 : Int) ∧
      ((M : Int).tdiv (p.2 : Int)) * inv ≡ 1 [ZMOD (p.2 : Int)] ∧
      (ps.map (crtTerm (M : Int))).sum ≡ (p.1 : Int) [ZMOD (p.2 : Int)] := by
  obtain ⟨pre, post, he⟩ := List.append_of_mem hp
  have hmsplit : ps.map Prod.snd = pre.map Prod.snd ++ p.2 :: post.map Prod.snd := by
    rw [he, List.map_append, List.map_cons]
  have hposms : ∀ m ∈ ps.map Prod.snd, 1 ≤ m := by
    intro m hm
    obtain ⟨q, hq, rfl⟩ := List.mem_map.1 hm
    exact hpos q hq
  obtain ⟨hcopr, hdvd⟩ := crt_split_facts hposms hcop hmsplit
  rw [← hMdef] at hcopr hdvd
  have hp2 : 1 ≤ p.2 := hpos p hp
  have htd : ∀ q : Nat, (M : Int).tdiv (q : Int) = ((M / q : Nat) : Int) :=
    fun q => (Int.ofNat_tdiv M q).symm
  obtain ⟨inv, hinv, hinv0, hinvlt, hinvcong⟩ :=
    @mod_inverse_spec ((M / p.2 : Nat) : Int) (p.2 : Int)
      (by exact_mod_cast hp2) (by positivity)
      (by rw [Int.gcd_natCast_natCast]; exact hcopr)
  refine ⟨inv, by rw [htd p.2]; exact hinv, hinv0, hinvlt, by rw [htd p.2]; exact hinvcong, ?_⟩
  -- the term sum is congruent to this position's remainder
  have hterm_dvd : ∀ q ∈ pre ++ post, (p.2 : Int) ∣ crtTerm (M : Int) q := by
    intro q hq
    have hq2 : p.2 ∣ M / q.2 := by
      apply hdvd q.2
      rcases List.mem_append.1 hq with h5 | h5
      · exact List.mem_append.2 (Or.inl (List.mem_map_of_mem _ h5))
      · exact List.mem_append.2 (Or.inr (List.mem_map_of_mem _ h5))
    have hq2' : (p.2 : Int) ∣ ((M / q.2 : Nat) : Int) := Int.natCast_dvd_natCast.2 hq2
    unfold crtTerm
    rw [htd q.2]
    exact (hq2'.mul_left (q.1 : Int)).mul_right _
  have hsumsplit : (ps.map (crtTerm (M : Int))).sum =
      (pre.map (crtTerm (M : Int))).sum + (crtTerm (M : Int) p +
        (post.map (crtTerm (M : Int))).sum) := by
    rw [he, List.map_append, List.map_cons, List.sum_append, List.sum_cons]
  have hA : (pre.map (crtTerm (M : Int))).sum ≡ 0 [ZMOD (p.2 : Int)] :=
    Int.modEq_zero_iff_dvd.2 (List.dvd_sum fun x hx => by
      obtain ⟨q, hq, rfl⟩ := List.mem_map.1 hx
      exact hterm_dvd q (List.mem_append.2 (Or.inl hq)))
  have hB : (post.map (crtTerm (M : Int))).sum ≡ 0 [ZMOD (p.2 : Int)] :=
    Int.modEq_zero_iff_dvd.2 (List.dvd_sum fun x hx => by
      obtain ⟨q, hq, rfl⟩ := List.mem_map.1 hx
      exact hterm_dvd q (List.mem_append.2 (Or.inr hq)))
  have hterm : crtTerm (M : Int) p ≡ (p.1 : Int) [ZMOD (p.2 : Int)] := by
    have h5 : crtTerm (M : Int) p =
        (p.1 : Int) * (((M / p.2 : Nat) : Int) * inv) := by
      unfold crtTerm
      rw [htd p.2, hinv]
      simp only [Option.getD_some]
      ring
    rw [h5]
    calc (p.1 : Int) * (((M / p.2 : Nat) : Int) * inv)
        ≡ (p.1 : Int) * 1 [ZMOD (p.2 : Int)] := hinvcong.mul_left _
    _ = (p.1 : Int) := by ring
  rw [hsumsplit]
  have h6 := hA.add (hterm.add hB)
  simpa using h6

lemma inv_term_bound {c m inv : Int} (hc : 1 ≤ c) (hm : 1 ≤ m)
    (h0 : 0 ≤ inv) (hlt : inv < m) (hcong : c * inv ≡ 1 [ZMOD m]) :
    c * inv ≤ (c - 1) * m + 1 := by
  rcases eq_or_lt_of_le hm with hm1 | hm2
  · have hinv0 : inv = 0 := by omega
    rw [hinv0]
    nlinarith
  · have ht : (c * inv) % m = 1 % m := hcong
    have h1m : (1 : Int) % m = 1 := Int.emod_eq_of_lt (by omega) (by omega)
    rw [h1m] at ht
    have hdm : m * ((c * inv) / m) + (c * inv) % m = c * inv := Int.ediv_add_emod _ _
    have htlt : c * inv < c * m := by
      apply mul_lt_mul_of_pos_left hlt
      omega
    have hqlt : (c * inv) / m < c := by
      by_contra h5
      push_neg at h5
      have h6 : m * c ≤ m * ((c * inv) / m) := mul_le_mul_of_nonneg_left h5 (by omega)
      nlinarith
    have h7 : m * ((c * inv) / m) ≤ m * (c - 1) := by
      apply mul_le_mul_of_nonneg_left (by omega) (by omega)
    nlinarith

lemma crtIntermediates_bound (M : Int) :
    ∀ (ps : List (Nat × Nat)) (acc B : Int),
      (∀ p ∈ ps, (mod_inverse (M.tdiv (p.2 : Int)) (p.2 : Int)).isSome) →
      (∀ p ∈ ps, 0 ≤ (p.1 : Int) * M.tdiv (p.2 : Int) ∧
        (p.1 : Int) * M.tdiv (p.2 : Int) ≤ B) →
      (∀ p ∈ ps, 0 ≤ crtTerm M p) →
      0 ≤ acc → acc + (ps.map (crtTerm M)).sum ≤ B →
      ∀ v ∈ crtIntermediates M ps acc, 0 ≤ v ∧ v ≤ B
  | [], acc, B, _, _, _, _, _ => by simp [crtIntermediates]
  | (r, m) :: t, acc, B, hsome, hrpp, hterm, hacc, hsum => by
    obtain ⟨inv, hinv⟩ := Option.isSome_iff_exists.1 (hsome (r, m) (by simp))
    have htermeq : crtTerm M (r, m) = (r : Int) * M.tdiv (m : Int) * inv := by
      unfold crtTerm
      rw [hinv]
      simp
    have ht0 : 0 ≤ crtTerm M (r, m) := hterm (r, m) (by simp)
    have hsumt : 0 ≤ (t.map (crtTerm M)).sum :=
      List.sum_nonneg fun x hx => by
        obtain ⟨q, hq, rfl⟩ := List.mem_map.1 hx
        exact hterm q (by simp [hq])
    have hsum' : (acc + crtTerm M (r, m)) + (t.map (crtTerm M)).sum ≤ B := by
      have h5 := hsum
      simp only [List.map_cons, List.sum_cons] at h5
      linarith
    have ih := crtIntermediates_bound M t (acc + crtTerm M (r, m)) B
      (fun p hp => hsome p (by simp [hp]))
      (fun p hp => hrpp p (by simp [hp]))
      (fun p hp => hterm p (by simp [hp]))
      (by linarith) hsum'
    intro v hv
    simp only [crtIntermediates, hinv, List.mem_cons] at hv
    rcases hv with hv | hv | hv | hv
    · rw [hv]; exact hrpp (r, m) (by simp)
    · rw [hv, ← htermeq]
      exact ⟨ht0, by linarith⟩
    · rw [hv, ← htermeq]
      exact ⟨by linarith, by linarith⟩
    · rw [htermeq] at ih
      exact ih v hv

/-- Full functional specification of `chinese_remainder`: under the
precondition of claim C3 it returns the unique CRT solution in `[0, M)`,
and every `i128` intermediate stays inside `[0, 2^127)`. -/
theorem chinese_remainder_spec {rs ms : List Nat}
    (hlen : rs.length = ms.length)
    (hmem : ∀ p ∈ rs.zip ms, p.1 < p.2)
    (hpos : ∀ m ∈ ms, 1 ≤ m)
    (hcop : ms.Pairwise Nat.Coprime)
    (hM64 : ms.prod < 2 ^ 64) :
    ∃ x, chinese_remainder rs ms = some x ∧ x < ms.prod ∧
      (∀ p ∈ rs.zip ms, x % p.2 = p.1) ∧
      (∀ y, y < ms.prod → (∀ p ∈ rs.zip ms, y % p.2 = p.1) → y = x) ∧
      (∀ v ∈ crtIntermediates ((ms.prod : Nat) : Int) (rs.zip ms) 0,
        0 ≤ v ∧ v < 2 ^ 127) := by
  set M := ms.prod with hMdef0
  set ps := rs.zip ms with hps
  have hsnd : ps.map Prod.snd = ms := List.map_snd_zip rs ms (le_of_eq hlen.symm)
  have hMdef : M = (ps.map Prod.snd).prod := by rw [hsnd]
  have hpos' : ∀ p ∈ ps, 1 ≤ p.2 := fun p hp =>
    hpos p.2 (by rw [← hsnd]; exact List.mem_map_of_mem _ hp)
  have hcop' : (ps.map Prod.snd).Pairwise Nat.Coprime := by rw [hsnd]; exact hcop
  have hM1 : 1 ≤ M := List.prod_pos fun m hm => hpos m hm
  have hdvdM : ∀ p ∈ ps, p.2 ∣ M :=
    fun p hp => List.dvd_prod (by rw [← hsnd]; exact List.mem_map_of_mem _ hp)
  have posfacts := fun p (hp : p ∈ ps) => crt_pos_facts hMdef hpos' hcop' hp
  have hsome : ∀ p ∈ ps, (mod_inverse ((M : Int).tdiv (p.2 : Int)) (p.2 : Int)).isSome := by
    intro p hp
    obtain ⟨inv, hinv, -⟩ := posfacts p hp
    simp [hinv]
  have htd : ∀ q : Nat, (M : Int).tdiv (q : Int) = ((M / q : Nat) : Int) :=
    fun q => (Int.ofNat_tdiv M q).symm
  have hterm0 : ∀ p ∈ ps, 0 ≤ crtTerm (M : Int) p := by
    intro p hp
    obtain ⟨inv, hinv, hinv0, -, -, -⟩ := posfacts p hp
    unfold crtTerm
    rw [hinv]
    simp only [Option.getD_some]
    apply mul_nonneg (mul_nonneg (by positivity) ?_) hinv0
    rw [htd p.2]
    positivity
  -- term bound: each term is at most (m - 1) * (M - m + 1), as a cast
  have htermbound : ∀ p ∈ ps, crtTerm (M : Int) p ≤
      (((p.2 - 1) * (M - p.2 + 1) : Nat) : Int) := by
    intro p hp
    obtain ⟨inv, hinv, hinv0, hinvlt, hinvcong, -⟩ := posfacts p hp
    have hp2 : 1 ≤ p.2 := hpos' p hp
    have hp2M : p.2 ≤ M := Nat.le_of_dvd (by omega) (hdvdM p hp)
    have hc1 : 1 ≤ ((M / p.2 : Nat) : Int) := by
      have h5 : 1 ≤ M / p.2 := (Nat.one_le_div_iff (by omega)).2 hp2M
      exact_mod_cast h5
    have hcm : ((M / p.2 : Nat) : Int) * (p.2 : Int) = (M : Int) := by
      have h5 : M / p.2 * p.2 = M := Nat.div_mul_cancel (hdvdM p hp)
      exact_mod_cast h5
    have hbnd := inv_term_bound hc1 (by exact_mod_cast hp2) hinv0 hinvlt
      (by rw [← htd p.2]; exact hinvcong)
    have hr : (p.1 : Int) ≤ (p.2 : Int) - 1 := by
      have h5 := hmem p hp
      omega
    have heq : crtTerm (M : Int) p = (p.1 : Int) * (((M / p.2 : Nat) : Int) * inv) := by
      unfold crtTerm
      rw [htd p.2] at hinv ⊢
      rw [hinv]
      simp only [Option.getD_some]
      ring
    have hub : (((M / p.2 : Nat) : Int) - 1) * (p.2 : Int) + 1
        = (M : Int) - (p.2 : Int) + 1 := by
      linear_combination hcm
    have h6 : crtTerm (M : Int) p ≤ (p.1 : Int) * ((M : Int) - (p.2 : Int) + 1) := by
      rw [heq, ← hub]
      apply mul_le_mul_of_nonneg_left hbnd (by positivity)
    have h7 : (p.1 : Int) * ((M : Int) - (p.2 : Int) + 1)
        ≤ ((p.2 : Int) - 1) * ((M : Int) - (p.2 : Int) + 1) := by
      apply mul_le_mul_of_nonneg_right hr
      have : (p.2 : Int) ≤ (M : Int) := by exact_mod_cast hp2M
      omega
    have h8 : (((p.2 - 1) * (M - p.2 + 1) : Nat) : Int)
        = ((p.2 : Int) - 1) * ((M : Int) - (p.2 : Int) + 1) := by
      have h9 : (1 : Nat) ≤ p.2 := hp2
      have h10 : p.2 ≤ M := hp2M
      push_cast [h9, h10]
      ring
    rw [h8]
    linarith
  -- total sum bound
  have hsumbound : (ps.map (crtTerm (M : Int))).sum ≤ 2 ^ 127 - 1 := by
    have h5 : (ps.map (crtTerm (M : Int))).sum ≤
        (ps.map fun p => (((p.2 - 1) * (M - p.2 + 1) : Nat) : Int)).sum :=
      List.sum_le_sum htermbound
    have h6 : (ps.map fun p => (((p.2 - 1) * (M - p.2 + 1) : Nat) : Int)).sum
        = (((ps.map fun p => (p.2 - 1) * (M - p.2 + 1)).sum : Nat) : Int) := by
      rw [Nat.cast_list_sum, List.map_map]
      rfl
    have h7 : (ps.map fun p => (p.2 - 1) * (M - p.2 + 1))
        = ms.map fun m => (m - 1) * (M - m + 1) := by
      rw [← hsnd, List.map_map]
      rfl
    have h8 := sum_term_sq ms hpos
    rw [← hMdef0] at h8
    have h9 : M ≤ 2 ^ 64 - 1 := by omega
    have h10 : M ^ 2 ≤ (2 ^ 64 - 1) ^ 2 := Nat.pow_le_pow_left h9 2
    have h11 : (ms.map fun m => (m - 1) * (M - m + 1)).sum ≤ 2 ^ 127 - 1 := by omega
    calc (ps.map (crtTerm (M : Int))).sum
        ≤ (((ps.map fun p => (p.2 - 1) * (M - p.2 + 1)).sum : Nat) : Int) := by
          rw [← h6]; exact h5
    _ = (((ms.map fun m => (m - 1) * (M - m + 1)).sum : Nat) : Int) := by rw [h7]
    _ ≤ ((2 ^ 127 - 1 : Nat) : Int) := by exact_mod_cast h11
    _ = 2 ^ 127 - 1 := by norm_num
  have hS0 : 0 ≤ (ps.map (crtTerm (M : Int))).sum :=
    List.sum_nonneg fun x hx => by
      obtain ⟨q, hq, rfl⟩ := List.mem_map.1 hx
      exact hterm0 q hq
  set S := (ps.map (crtTerm (M : Int))).sum with hSdef
  -- evaluate chinese_remainder
  have hfold : tryFoldMul 1 ms = some M := by
    have h5 := tryFoldMul_eq ms 1 hpos (by simpa using hM64)
    simpa using h5
  have hloop : crtLoop (M : Int) ps 0 = some S := by
    rw [crtLoop_acc (M : Int) ps 0 hsome]
    congr 1
    simp [hSdef]
  have hxZnn : 0 ≤ S.tmod (M : Int) := Int.tmod_nonneg _ hS0
  have hxZlt : S.tmod (M : Int) < (M : Int) :=
    Int.tmod_lt_of_pos _ (by exact_mod_cast hM1)
  have htoU : toU64 (S.tmod (M : Int)) = (S.tmod (M : Int)).toNat := by
    unfold toU64
    rw [Int.emod_eq_of_lt hxZnn (by
      have h5 : ((M : Nat) : Int) ≤ ((2 ^ 64 : Nat) : Int) := by exact_mod_cast hM64.le
      push_cast at h5
      omega)]
  have hloop2 : crtLoop (M : Int) (rs.zip ms) 0 = some S := by
    rw [← hps]
    exact hloop
  have hcr : chinese_remainder rs ms = some ((S.tmod (M : Int)).toNat) := by
    unfold chinese_remainder
    simp only [if_neg (show ¬rs.length ≠ ms.length by omega), hfold, hloop2, htoU]
  set x := (S.tmod (M : Int)).toNat with hxdef
  have hxZ : (x : Int) = S.tmod (M : Int) := Int.toNat_of_nonneg hxZnn
  have hxlt : x < M := by
    have h5 : (x : Int) < (M : Int) := hxZ ▸ hxZlt
    exact_mod_cast h5
  have hxS : (x : Int) ≡ S [ZMOD (M : Int)] := by
    rw [Int.modEq_iff_dvd, hxZ, Int.tmod_def]
    exact ⟨S.tdiv (M : Int), by ring⟩
  have hxmod : ∀ p ∈ ps, x % p.2 = p.1 := by
    intro p hp
    obtain ⟨inv, -, -, -, -, hScong⟩ := posfacts p hp
    have hd : ((p.2 : Nat) : Int) ∣ ((M : Nat) : Int) := Int.natCast_dvd_natCast.2 (hdvdM p hp)
    have h5 : (x : Int) ≡ (p.1 : Int) [ZMOD (p.2 : Int)] :=
      (hxS.of_dvd hd).trans hScong
    have h6 : ((x % p.2 : Nat) : Int) = ((p.1 % p.2 : Nat) : Int) := by
      push_cast
      exact h5
    have h7 : x % p.2 = p.1 % p.2 := by exact_mod_cast h6
    rw [Nat.mod_eq_of_lt (hmem p hp)] at h7
    exact h7
  refine ⟨x, hcr, hxlt, hxmod, ?_, ?_⟩
  · -- uniqueness
    intro y hy hycong
    have hdall : ∀ m' ∈ ms, (m' : Int) ∣ ((x : Int) - (y : Int)) := by
      intro m' hm'
      rw [← hsnd] at hm'
      obtain ⟨q, hq, rfl⟩ := List.mem_map.1 hm'
      have hmodeq : y ≡ x [MOD q.2] := by
        unfold Nat.ModEq
        rw [hxmod q hq, hycong q hq]
      exact hmodeq.dvd
    have hMd : ((M : Nat) : Int) ∣ ((x : Int) - (y : Int)) :=
      pairwise_coprime_prod_dvd hcop hdall
    have habs : |(x : Int) - (y : Int)| < (M : Int) := by
      rw [abs_lt]
      constructor
      · have h5 : (y : Int) < (M : Int) := by exact_mod_cast hy
        have h6 : (0 : Int) ≤ (x : Int) := Int.natCast_nonneg x
        omega
      · have h5 : (x : Int) < (M : Int) := by exact_mod_cast hxlt
        have h6 : (0 : Int) ≤ (y : Int) := Int.natCast_nonneg y
        omega
    have h7 : (x : Int) - (y : Int) = 0 := Int.eq_zero_of_abs_lt_dvd hMd habs
    have h8 : (y : Int) = (x : Int) := by omega
    exact_mod_cast h8
  · -- i128 intermediates
    have hrppB : ∀ p ∈ ps, 0 ≤ (p.1 : Int) * (M : Int).tdiv (p.2 : Int) ∧
        (p.1 : Int) * (M : Int).tdiv (p.2 : Int) ≤ 2 ^ 127 - 1 := by
      intro p hp
      constructor
      · rw [htd p.2]
        exact mul_nonneg (Int.natCast_nonneg _) (Int.natCast_nonneg _)
      · have hrpp : p.1 * (M / p.2) ≤ M := by
          calc p.1 * (M / p.2) ≤ p.2 * (M / p.2) :=
            Nat.mul_le_mul_right _ (hmem p hp).le
          _ = M := by
            rw [mul_comm]
            exact Nat.div_mul_cancel (hdvdM p hp)
        have h5 : ((p.1 * (M / p.2) : Nat) : Int) ≤ ((M : Nat) : Int) := by
          exact_mod_cast hrpp
        rw [htd p.2]
        push_cast at h5
        have h6 : ((M : Nat) : Int) < 2 ^ 64 := by exact_mod_cast hM64
        omega
    intro v hv
    have h5 := crtIntermediates_bound (M : Int) ps 0 (2 ^ 127 - 1) hsome hrppB
      hterm0 le_rfl (by simpa using hsumbound) v hv
    exact ⟨h5.1, by omega⟩

/-! ## Trial division: correctness of `FactoredInteger.new` -/

/-- With residual 0 the trial-division loop guard `n % q == 0` never becomes
false, so the loop never exits, whatever the iteration budget. -/
lemma stripGo_never_zero (q : Nat) : ∀ fuel, stripGo q fuel 0 = none
  | 0 => by simp [stripGo]
  | fuel + 1 => by simp [stripGo, stripGo_never_zero q fuel]

lemma stripGo_sound (q : Nat) : ∀ fuel n c r, stripGo q fuel n = some (c, r) →
    n = q ^ c * r ∧ r % q ≠ 0
  | 0, n, c, r => by
    intro h
    unfold stripGo at h
    by_cases h1 : n % q = 0
    · simp [h1] at h
    · simp only [h1, if_false, Option.some.injEq, Prod.mk.injEq] at h
      obtain ⟨rfl, rfl⟩ := h
      simpa using h1
  | fuel + 1, n, c, r => by
    intro h
    unfold stripGo at h
    by_cases h1 : n % q = 0
    · rw [if_pos h1] at h
      cases heq : stripGo q fuel (n / q) with
      | none => rw [heq] at h; exact absurd h (by simp)
      | some cr =>
        obtain ⟨c', r'⟩ := cr
        rw [heq] at h
        simp only [Option.some.injEq, Prod.mk.injEq] at h
        obtain ⟨hc, hr⟩ := h
        obtain ⟨hrec, hnd⟩ := stripGo_sound q fuel (n / q) c' r' heq
        refine ⟨?_, by rw [← hr]; exact hnd⟩
        rw [← hc, ← hr]
        have hdvd : q * (n / q) = n := Nat.mul_div_cancel' (Nat.dvd_of_mod_eq_zero h1)
        calc n = q * (n / q) := hdvd.symm
        _ = q * (q ^ c' * r') := by rw [hrec]
        _ = q ^ (c' + 1) * r' := by ring
    · rw [if_neg h1] at h
      simp only [Option.some.injEq, Prod.mk.injEq] at h
      obtain ⟨rfl, rfl⟩ := h
      simpa using h1

lemma stripGo_isSome (q : Nat) (hq : 2 ≤ q) : ∀ fuel n, 1 ≤ n → n < q ^ fuel →
    ∃ c r, stripGo q fuel n = some (c, r)
  | 0, n, h1, hlt => by
    rw [pow_zero] at hlt
    omega
  | fuel + 1, n, h1, hlt => by
    unfold stripGo
    by_cases h2 : n % q = 0
    · have hd : q ∣ n := Nat.dvd_of_mod_eq_zero h2
      have h3 : 1 ≤ n / q := (Nat.one_le_div_iff (by omega)).2 (Nat.le_of_dvd (by omega) hd)
      have h4 : n / q < q ^ fuel := by
        rw [Nat.div_lt_iff_lt_mul (by omega)]
        calc n < q ^ (fuel + 1) := hlt
        _ = q ^ fuel * q := by ring
      obtain ⟨c, r, hcr⟩ := stripGo_isSome q hq fuel (n / q) h3 h4
      rw [if_pos h2, hcr]
      exact ⟨c + 1, r, rfl⟩
    · rw [if_neg h2]
      exact ⟨0, n, rfl⟩

/-- Full invariant of the odd trial-divisor loop: it terminates returning the
pairs appended to `acc`, the found factors are increasing primes in
`[p, 255)` with positive exponents whose prime-power product times the final
residual reconstructs `n`, and the final residual is 1 or has no prime
factor below 255. -/
lemma oddLoop_sound : ∀ (it p n : Nat) (acc : List (Nat × Nat)) res,
    oddLoop it p n acc = some res →
    3 ≤ p → p % 2 = 1 → 1 ≤ n →
    (∀ q, Nat.Prime q → q ∣ n → p ≤ q) →
    p + 2 * it = 255 →
    ∃ fs : List (Nat × Nat),
      res.2 = acc ++ fs ∧
      (fs.map fun pe => pe.1 ^ pe.2).prod * res.1 = n ∧
      1 ≤ res.1 ∧
      (∀ pe ∈ fs, p ≤ pe.1 ∧ pe.1 < 255 ∧ pe.1.Prime ∧ 1 ≤ pe.2) ∧
      fs.Pairwise (fun a b => a.1 < b.1) ∧
      (res.1 = 1 ∨ ∀ q, Nat.Prime q → q ∣ res.1 → 255 ≤ q)
  | 0, p, n, acc, res => by
    intro h hp hodd hn hnf hit
    have hres : res = (n, acc) := by
      simpa [oddLoop] using h.symm
    subst hres
    exact ⟨[], by simp, by simp, hn, by simp, by simp,
      Or.inr fun q hq hqd => by
        have := hnf q hq hqd
        omega⟩
  | it + 1, p, n, acc, res => by
    intro h hp hodd hn hnf hit
    unfold oddLoop at h
    cases heq : stripGo p 64 n with
    | none => rw [heq] at h; exact absurd h (by simp)
    | some cr =>
      obtain ⟨c, r⟩ := cr
      rw [heq] at h
      simp only at h
      obtain ⟨hnrep, hrmod⟩ := stripGo_sound p 64 n c r heq
      have hr1 : 1 ≤ r := by
        rcases Nat.eq_zero_or_pos r with h5 | h5
        · subst h5
          simp at hnrep
          omega
        · exact h5
      have hrdvd : r ∣ n := ⟨p ^ c, by rw [hnrep]; ring⟩
      have hprime_if : c ≠ 0 → p.Prime := by
        intro hc
        have hpd : p ∣ n := by
          obtain ⟨c', rfl⟩ : ∃ c', c = c' + 1 := ⟨c - 1, by omega⟩
          refine ⟨p ^ c' * r, ?_⟩
          rw [hnrep, pow_succ]
          ring
        have hmf : (Nat.minFac p).Prime := Nat.minFac_prime (by omega)
        have h6 : p ≤ Nat.minFac p := hnf _ hmf ((Nat.minFac_dvd p).trans hpd)
        have h7 : Nat.minFac p ≤ p := Nat.minFac_le (by omega)
        have h8 : Nat.minFac p = p := le_antisymm h7 h6
        rw [← h8]
        exact hmf
      have hpbound : p < 255 := by omega
      have hr_nf : ∀ q, Nat.Prime q → q ∣ r → p + 2 ≤ q := by
        intro q hq hqr
        have hqn : q ∣ n := hqr.trans hrdvd
        have h5 : p ≤ q := hnf q hq hqn
        have h6 : q ≠ p := by
          rintro rfl
          exact hrmod (Nat.eq_zero_of_dvd_of_lt hqr |> fun _ => Nat.mod_eq_zero_of_dvd hqr)
        have h7 : q ≠ p + 1 := by
          rintro rfl
          have h8 : 2 ∣ p + 1 := by omega
          have h9 : p + 1 = 2 := ((Nat.prime_dvd_prime_iff_eq Nat.prime_two hq).1 h8).symm
          omega
        omega
      by_cases hrone : r = 1
      · -- early break
        rw [if_pos hrone] at h
        have hres : res = (r, if c ≠ 0 then acc ++ [(p, c)] else acc) := by
          simpa using h.symm
        subst hres
        by_cases hc : c ≠ 0
        · refine ⟨[(p, c)], by simp [hc], ?_, by omega, ?_, by simp, Or.inl hrone⟩
          · simp only [List.map_cons, List.map_nil, List.prod_cons, List.prod_nil]
            rw [hnrep, hrone]
            ring
          · intro pe hpe
            simp only [List.mem_singleton] at hpe
            subst hpe
            exact ⟨le_refl _, hpbound, hprime_if hc, by omega⟩
        · push_neg at hc
          refine ⟨[], by simp [hc], ?_, by omega, by simp, by simp, Or.inl hrone⟩
          simp only [List.map_nil, List.prod_nil, one_mul]
          rw [hnrep, hc, hrone]
          simp
      · -- continue with the next odd divisor
        rw [if_neg hrone] at h
        obtain ⟨fs', hacc', hprod', hres1, helem', hpair', hlast'⟩ :=
          oddLoop_sound it (p + 2) r _ res h (by omega) (by omega) hr1 hr_nf (by omega)
        refine ⟨(if c ≠ 0 then [(p, c)] else []) ++ fs', ?_, ?_, hres1, ?_, ?_, hlast'⟩
        · rw [hacc']
          by_cases hc : c ≠ 0 <;> simp [hc]
        · rw [List.map_append, List.prod_append, mul_assoc, hprod']
          by_cases hc : c ≠ 0
          · rw [if_pos hc]
            simp only [List.map_cons, List.map_nil, List.prod_cons, List.prod_nil]
            rw [hnrep]
            ring
          · push_neg at hc
            subst hc
            rw [if_neg (by simp)]
            simp only [List.map_nil, List.prod_nil, one_mul]
            rw [hnrep]
            simp
        · intro pe hpe
          rcases List.mem_append.1 hpe with h5 | h5
          · by_cases hc : c ≠ 0
            · rw [if_pos hc] at h5
              simp only [List.mem_singleton] at h5
              subst h5
              exact ⟨le_refl _, hpbound, hprime_if hc, by omega⟩
            · rw [if_neg hc] at h5
              simp at h5
          · obtain ⟨h6, h7, h8, h9⟩ := helem' pe h5
            exact ⟨by omega, h7, h8, h9⟩
        · rw [List.pairwise_append]
          refine ⟨?_, hpair', ?_⟩
          · by_cases hc : c ≠ 0 <;> simp [hc]
          · intro a ha b hb
            by_cases hc : c ≠ 0
            · rw [if_pos hc] at ha
              simp only [List.mem_singleton] at ha
              subst ha
              have := (helem' b hb).1
              omega
            · rw [if_neg hc] at ha
              simp at ha

lemma oddLoop_step {p n c r : Nat} (it : Nat) (acc : List (Nat × Nat))
    (h : stripGo p 64 n = some (c, r)) :
    oddLoop (it + 1) p n acc =
      if r = 1 then some (r, if c ≠ 0 then acc ++ [(p, c)] else acc)
      else oddLoop it (p + 2) r (if c ≠ 0 then acc ++ [(p, c)] else acc) := by
  conv_lhs => unfold oddLoop
  rw [h]

lemma oddLoop_isSome : ∀ (it p n : Nat) (acc : List (Nat × Nat)), 2 ≤ p →
    1 ≤ n → n < 2 ^ 64 → ∃ res, oddLoop it p n acc = some res
  | 0, p, n, acc, _, _, _ => ⟨(n, acc), rfl⟩
  | it + 1, p, n, acc, hp, h1, h64 => by
    have hlt : n < p ^ 64 := lt_of_lt_of_le h64 (Nat.pow_le_pow_left hp 64)
    obtain ⟨c, r, hcr⟩ := stripGo_isSome p hp 64 n h1 hlt
    obtain ⟨hrep, -⟩ := stripGo_sound p 64 n c r hcr
    have hr1 : 1 ≤ r := by
      rcases Nat.eq_zero_or_pos r with h5 | h5
      · subst h5; simp at hrep; omega
      · exact h5
    have hr64 : r < 2 ^ 64 := by
      have h5 : r ∣ n := ⟨p ^ c, by rw [hrep]; ring⟩
      exact lt_of_le_of_lt (Nat.le_of_dvd (by omega) h5) h64
    rw [oddLoop_step it acc hcr]
    by_cases hrone : r = 1
    · rw [if_pos hrone]
      exact ⟨_, rfl⟩
    · rw [if_neg hrone]
      exact oddLoop_isSome it (p + 2) r _ (by omega) hr1 hr64

/-- A prime dividing a product over a list divides one of the elements. -/
lemma prime_dvd_list_prod {q : Nat} (hq : q.Prime) : ∀ {l : List Nat},
    q ∣ l.prod → ∃ x ∈ l, q ∣ x
  | [], h => by
    rw [List.prod_nil] at h
    exact absurd (Nat.le_of_dvd one_pos h) (by
      have := hq.two_le
      omega)
  | b :: l, h => by
    rw [List.prod_cons] at h
    rcases (Nat.Prime.dvd_mul hq).1 h with h5 | h5
    · exact ⟨b, by simp, h5⟩
    · obtain ⟨x, hx, hdx⟩ := prime_dvd_list_prod hq h5
      exact ⟨x, by simp [hx], hdx⟩

/-- Structure of a successful factorization: the factor pairs are strictly
increasing primes below 255 with positive exponents, and their prime-power
product is the input. -/
lemma new_sound {n : Nat} {f : FactoredInteger}
    (h : FactoredInteger.new n = some (some f)) :
    (f.factors.map fun pe => pe.1 ^ pe.2).prod = n ∧
    (∀ pe ∈ f.factors, pe.1.Prime ∧ 1 ≤ pe.2 ∧ pe.1 < 255) ∧
    f.factors.Pairwise (fun a b => a.1 < b.1) := by
  unfold FactoredInteger.new at h
  cases h2 : stripGo 2 64 n with
  | none => rw [h2] at h; exact absurd h (by simp)
  | some cr =>
    obtain ⟨c2, r2⟩ := cr
    rw [h2] at h
    simp only at h
    obtain ⟨hnrep, hr2mod⟩ := stripGo_sound 2 64 n c2 r2 h2
    have hr21 : 1 ≤ r2 := by
      rcases Nat.eq_zero_or_pos r2 with h5 | h5
      · subst h5; simp at hr2mod
      · exact h5
    cases h3 : oddLoop 126 3 r2 (if c2 ≠ 0 then [(2, c2)] else []) with
    | none => rw [h3] at h; exact absurd h (by simp)
    | some res =>
      rw [h3] at h
      simp only [Option.some.injEq] at h
      have hnf3 : ∀ q, Nat.Prime q → q ∣ r2 → 3 ≤ q := by
        intro q hq hqd
        have h5 : q ≠ 2 := by
          rintro rfl
          exact hr2mod (Nat.mod_eq_zero_of_dvd hqd)
        have := hq.two_le
        omega
      obtain ⟨fs, hacc, hprod, hres1, helem, hpair, -⟩ :=
        oddLoop_sound 126 3 r2 _ res h3 (by omega) (by omega) hr21 hnf3 (by omega)
      by_cases hone : res.1 = 1
      · rw [if_pos hone] at h
        simp only [Option.some.injEq] at h
        have hf : f.factors = (if c2 ≠ 0 then [(2, c2)] else []) ++ fs := by
          rw [← h]
          exact hacc
        rw [hone, mul_one] at hprod
        refine ⟨?_, ?_, ?_⟩
        · rw [hf, List.map_append, List.prod_append, hprod]
          by_cases hc : c2 ≠ 0
          · rw [if_pos hc]
            simp only [List.map_cons, List.map_nil, List.prod_cons, List.prod_nil]
            rw [hnrep]
            ring
          · push_neg at hc
            subst hc
            rw [if_neg (by simp)]
            simp only [List.map_nil, List.prod_nil, one_mul]
            rw [hnrep]
            simp
        · intro pe hpe
          rw [hf] at hpe
          rcases List.mem_append.1 hpe with h5 | h5
          · by_cases hc : c2 ≠ 0
            · rw [if_pos hc] at h5
              simp only [List.mem_singleton] at h5
              subst h5
              exact ⟨Nat.prime_two, by omega, by omega⟩
            · rw [if_neg hc] at h5
              simp at h5
          · obtain ⟨h6, h7, h8, h9⟩ := helem pe h5
            exact ⟨h8, h9, h7⟩
        · rw [hf, List.pairwise_append]
          refine ⟨?_, hpair, ?_⟩
          · by_cases hc : c2 ≠ 0 <;> simp [hc]
          · intro a ha b hb
            by_cases hc : c2 ≠ 0
            · rw [if_pos hc] at ha
              simp only [List.mem_singleton] at ha
              subst ha
              have := (helem b hb).1
              omega
            · rw [if_neg hc] at ha
              simp at ha
      · rw [if_neg hone] at h
        exact absurd h (by simp)

/-- A successful factorization certifies that every prime factor of the
input is below 256. -/
lemma new_prime_bound {n : Nat} {f : FactoredInteger}
    (h : FactoredInteger.new n = some (some f)) :
    ∀ q, Nat.Prime q → q ∣ n → q < 256 := by
  obtain ⟨hprod, helem, -⟩ := new_sound h
  intro q hq hqn
  rw [← hprod] at hqn
  obtain ⟨x, hx, hdx⟩ := prime_dvd_list_prod hq hqn
  obtain ⟨pe, hpe, rfl⟩ := List.mem_map.1 hx
  have h5 : q ∣ pe.1 := hq.dvd_of_dvd_pow hdx
  have h6 : q = pe.1 := (Nat.prime_dvd_prime_iff_eq hq (helem pe hpe).1).1 h5
  have h7 := (helem pe hpe).2.2
  omega

/-- A failed factorization certifies a prime factor at least 256. -/
lemma new_fail {n : Nat} (h : FactoredInteger.new n = some none) :
    ∃ q, q.Prime ∧ q ∣ n ∧ 256 ≤ q := by
  unfold FactoredInteger.new at h
  cases h2 : stripGo 2 64 n with
  | none => rw [h2] at h; exact absurd h (by simp)
  | some cr =>
    obtain ⟨c2, r2⟩ := cr
    rw [h2] at h
    simp only at h
    obtain ⟨hnrep, hr2mod⟩ := stripGo_sound 2 64 n c2 r2 h2
    have hr21 : 1 ≤ r2 := by
      rcases Nat.eq_zero_or_pos r2 with h5 | h5
      · subst h5; simp at hr2mod
      · exact h5
    cases h3 : oddLoop 126 3 r2 (if c2 ≠ 0 then [(2, c2)] else []) with
    | none => rw [h3] at h; exact absurd h (by simp)
    | some res =>
      rw [h3] at h
      simp only [Option.some.injEq] at h
      have hnf3 : ∀ q, Nat.Prime q → q ∣ r2 → 3 ≤ q := by
        intro q hq hqd
        have h5 : q ≠ 2 := by
          rintro rfl
          exact hr2mod (Nat.mod_eq_zero_of_dvd hqd)
        have := hq.two_le
        omega
      obtain ⟨fs, hacc, hprod, hres1, helem, hpair, hlast⟩ :=
        oddLoop_sound 126 3 r2 _ res h3 (by omega) (by omega) hr21 hnf3 (by omega)
      by_cases hone : res.1 = 1
      · rw [if_pos hone] at h
        exact absurd h (by simp)
      · have h5 : 2 ≤ res.1 := by omega
        have hmf : (Nat.minFac res.1).Prime := Nat.minFac_prime (by omega)
        have hmfd : Nat.minFac res.1 ∣ res.1 := Nat.minFac_dvd _
        have hge : 255 ≤ Nat.minFac res.1 := by
          rcases hlast with h6 | h6
          · omega
          · exact h6 _ hmf hmfd
        have hne : Nat.minFac res.1 ≠ 255 := by
          rintro h7
          rw [h7] at hmf
          exact absurd hmf (by norm_num)
        have hr2d : res.1 ∣ r2 :=
          ⟨(fs.map fun pe => pe.1 ^ pe.2).prod, by rw [← hprod]; ring⟩
        have hr2n : r2 ∣ n := ⟨2 ^ c2, by rw [hnrep]; ring⟩
        have hdn : Nat.minFac res.1 ∣ n := (hmfd.trans hr2d).trans hr2n
        exact ⟨Nat.minFac res.1, hmf, hdn, by omega⟩

/-- On the `u64` domain the constructor terminates for every `n ≥ 1`. -/
lemma new_isSome {n : Nat} (h1 : 1 ≤ n) (h64 : n < 2 ^ 64) :
    ∃ res, FactoredInteger.new n = some res := by
  have hlt : n < 2 ^ 64 := h64
  obtain ⟨c2, r2, h2⟩ := stripGo_isSome 2 (by omega) 64 n h1 hlt
  obtain ⟨hnrep, -⟩ := stripGo_sound 2 64 n c2 r2 h2
  have hr21 : 1 ≤ r2 := by
    rcases Nat.eq_zero_or_pos r2 with h5 | h5
    · subst h5; simp at hnrep; omega
    · exact h5
  have hr264 : r2 < 2 ^ 64 := by
    have h5 : r2 ∣ n := ⟨2 ^ c2, by rw [hnrep]; ring⟩
    exact lt_of_le_of_lt (Nat.le_of_dvd (by omega) h5) h64
  obtain ⟨res, h3⟩ := oddLoop_isSome 126 3 r2 (if c2 ≠ 0 then [(2, c2)] else [])
    (by omega) hr21 hr264
  unfold FactoredInteger.new
  rw [h2]
  simp only
  rw [h3]
  exact ⟨_, rfl⟩

/-- When all prime factors of `n` are below 256, factorization succeeds. -/
lemma new_complete {n : Nat} (h1 : 1 ≤ n) (h64 : n < 2 ^ 64)
    (hall : ∀ q, Nat.Prime q → q ∣ n → q < 256) :
    ∃ f, FactoredInteger.new n = some (some f) := by
  obtain ⟨res, hres⟩ := new_isSome h1 h64
  cases res with
  | none =>
    obtain ⟨q, hq, hqd, hq256⟩ := new_fail hres
    have := hall q hq hqd
    omega
  | some f => exact ⟨f, hres⟩

/-! ## Fisher–Yates shuffling produces permutation tables -/

lemma cons_set_perm : ∀ {t : List Nat} {b z y : Nat}, t.get? b = some y →
    (y :: t.set b z).Perm (z :: t) := by
  intro t b z y hb
  rw [List.get?_eq_getElem?] at hb
  obtain ⟨hblt, hbv⟩ := List.getElem?_eq_some_iff.1 hb
  have hdecomp : t = t.take b ++ y :: t.drop (b + 1) := by
    conv_lhs => rw [← List.take_append_drop b t]
    rw [← List.getElem_cons_drop t b hblt, hbv]
  have hset : t.set b z = t.take b ++ z :: t.drop (b + 1) :=
    List.set_eq_take_cons_drop z hblt
  rw [hset]
  conv_rhs => rw [hdecomp]
  refine (List.Perm.cons y List.perm_middle).trans ?_
  refine (List.Perm.swap z y (t.take b ++ t.drop (b + 1))).trans ?_
  exact List.Perm.cons z List.perm_middle.symm

lemma set_set_perm : ∀ (l : List Nat) (a b x y : Nat),
    l.get? a = some x → l.get? b = some y → ((l.set a y).set b x).Perm l
  | [], a, b, x, y, ha, _ => by simp at ha
  | z :: t, 0, 0, x, y, ha, hb => by
    rw [List.get?_cons_zero] at ha hb
    obtain rfl : z = x := by simpa using ha
    simp
  | z :: t, 0, b + 1, x, y, ha, hb => by
    rw [List.get?_cons_zero] at ha
    rw [List.get?_cons_succ] at hb
    obtain rfl : z = x := by simpa using ha
    rw [List.set_cons_zero, List.set_cons_succ]
    exact cons_set_perm hb
  | z :: t, a + 1, 0, x, y, ha, hb => by
    rw [List.get?_cons_succ] at ha
    rw [List.get?_cons_zero] at hb
    obtain rfl : z = y := by simpa using hb
    rw [List.set_cons_succ, List.set_cons_zero]
    exact cons_set_perm ha
  | z :: t, a + 1, b + 1, x, y, ha, hb => by
    rw [List.get?_cons_succ] at ha hb
    rw [List.set_cons_succ, List.set_cons_succ]
    exact (set_set_perm t a b x y ha hb).cons z

lemma swapL_perm (l : List Nat) (a b : Nat) : (swapL l a b).Perm l := by
  unfold swapL
  cases ha : l.get? a with
  | none => exact List.Perm.refl l
  | some x =>
    cases hb : l.get? b with
    | none => exact List.Perm.refl l
    | some y => exact set_set_perm l a b x y ha hb

lemma fyFrom_perm (g : Nat → Nat) (c0 len : Nat) :
    ∀ fuel a v, (fyFrom g c0 len fuel a v).Perm v
  | 0, _, v => List.Perm.refl v
  | fuel + 1, a, v =>
    (fyFrom_perm g c0 len fuel (a + 1) _).trans
      (swapL_perm v a (randomRange a len (g (c0 + a))))

lemma fisherYates_perm (g : Nat → Nat) (c0 : Nat) (v : List Nat) :
    (fisherYates g c0 v).Perm v :=
  fyFrom_perm g c0 v.length v.length 0 v

lemma map_getD_range {β γ : Type} (d : β) (f : β → γ) :
    ∀ l : List β, (List.range l.length).map (fun i => f (l.getD i d)) = l.map f
  | [] => by simp
  | x :: t => by
    rw [List.length_cons, List.range_succ_eq_map, List.map_cons, List.map_map,
      List.map_cons]
    congr 1
    have h5 := map_getD_range d f t
    rw [← h5]
    apply List.map_congr_left
    intro i hi
    rfl

lemma buildSubs_mem (g : Nat → Nat) : ∀ (pks : List Nat) (c : Nat),
    ∀ t ∈ buildSubs g c pks, t.Perm (List.range t.length)
  | [], c, t, ht => by simp [buildSubs] at ht
  | pk :: l, c, t, ht => by
    rw [buildSubs] at ht
    rcases List.mem_cons.1 ht with h5 | h5
    · subst h5
      have hp := fisherYates_perm g c (List.range pk)
      have hlen : (fisherYates g c (List.range pk)).length = pk := by
        rw [hp.length_eq, List.length_range]
      rw [hlen]
      exact hp
    · exact buildSubs_mem g l (c + pk) t h5

lemma buildSubs_lengths (g : Nat → Nat) : ∀ (pks : List Nat) (c : Nat),
    (buildSubs g c pks).map List.length = pks
  | [], _ => rfl
  | pk :: l, c => by
    rw [buildSubs, List.map_cons, buildSubs_lengths g l (c + pk)]
    congr 1
    rw [(fisherYates_perm g c (List.range pk)).length_eq, List.length_range]

lemma factors_pow_coprime {fs : List (Nat × Nat)}
    (hel : ∀ pe ∈ fs, pe.1.Prime)
    (hpair : fs.Pairwise fun a b => a.1 ≠ b.1) :
    (fs.map fun pe => pe.1 ^ pe.2).Pairwise Nat.Coprime := by
  rw [List.pairwise_map]
  refine hpair.imp_of_mem ?_
  intro a b ha hb hne
  exact Nat.Coprime.pow _ _ ((Nat.coprime_primes (hel a ha) (hel b hb)).2 hne)

/-- Every permutation built by `with_rng` satisfies the structural invariant
`PermWf`, and stores the requested `n` as `num_points`. -/
lemma with_rng_wf {n : Nat} {g : Nat → Nat} {P : RandomPermutation}
    (h : RandomPermutation.with_rng n g = some (some P)) :
    PermWf P ∧ P.num_points = n := by
  unfold RandomPermutation.with_rng at h
  cases hnew : FactoredInteger.new n with
  | none => rw [hnew] at h; exact absurd h (by simp)
  | some o =>
    cases o with
    | none => rw [hnew] at h; exact absurd h (by simp)
    | some f =>
      rw [hnew] at h
      simp only [Option.some.injEq] at h
      obtain ⟨hprod, helem, hpairlt⟩ := new_sound hnew
      set k := f.factors.length with hk
      set order := fisherYates g 0 (List.range k) with horder
      set pks := order.map fun i =>
        (f.factors.getD i (0, 0)).1 ^ (f.factors.getD i (0, 0)).2 with hpks
      have hP : P = ⟨n, buildSubs g k pks⟩ := h.symm
      have hordperm : order.Perm (List.range k) := by
        rw [horder]
        exact fisherYates_perm g 0 (List.range k)
      -- the chosen pair list, a permutation of the factor list
      set fsel := order.map fun i => f.factors.getD i (0, 0) with hfsel
      have hfselperm : fsel.Perm f.factors := by
        have h6 : (List.range k).map (fun i => f.factors.getD i (0, 0)) = f.factors := by
          have h7 := map_getD_range (0, 0) (fun pe => pe) f.factors
          simpa using h7
        have h7 := hordperm.map fun i => f.factors.getD i (0, 0)
        rw [h6] at h7
        exact h7
      have hpks_fsel : pks = fsel.map fun pe => pe.1 ^ pe.2 := by
        rw [hpks, hfsel, List.map_map]
        rfl
      have hfsel_el : ∀ pe ∈ fsel, pe.1.Prime ∧ 1 ≤ pe.2 := by
        intro pe hpe
        have h5 := helem pe (hfselperm.mem_iff.1 hpe)
        exact ⟨h5.1, h5.2.1⟩
      have hfsel_ne : fsel.Pairwise fun a b => a.1 ≠ b.1 := by
        rw [List.Perm.pairwise_iff (fun h5 => h5.symm) hfselperm]
        exact hpairlt.imp_of_mem fun _ _ hlt => by omega
      have hmod : P.moduli = pks := by
        rw [hP]
        unfold RandomPermutation.moduli
        exact buildSubs_lengths g pks k
      refine ⟨⟨?_, ⟨fsel, hfsel_ne, hfsel_el, by rw [hmod, hpks_fsel]⟩, ?_⟩, by rw [hP]⟩
      · intro t ht
        rw [hP] at ht
        exact buildSubs_mem g pks k t ht
      · rw [hmod, hP]
        show pks.prod = n
        rw [hpks_fsel, (hfselperm.map fun pe => pe.1 ^ pe.2).prod_eq, hprod]

/-! ## Mixed-radix digits and table lookups -/

lemma remsGo_eq : ∀ (ts : List (List Nat)) (rem : List Nat) (n : Nat),
    (remsGo ts rem n).1 = rem ++ lookupDigits ts n
  | [], rem, n => by simp [remsGo, lookupDigits]
  | t :: l, rem, n => by
    rw [remsGo, lookupDigits, remsGo_eq l _ (n / t.length)]
    simp

lemma lookupDigits_length : ∀ (ts : List (List Nat)) (n : Nat),
    (lookupDigits ts n).length = ts.length
  | [], _ => rfl
  | t :: l, n => by simp [lookupDigits, lookupDigits_length l]

lemma mixedDigits_length : ∀ (lens : List Nat) (n : Nat),
    (mixedDigits lens n).length = lens.length
  | [], _ => rfl
  | L :: ls, n => by simp [mixedDigits, mixedDigits_length ls]

lemma unDigits_mixedDigits : ∀ (lens : List Nat) (n : Nat),
    (∀ L ∈ lens, 1 ≤ L) → n < lens.prod →
    unDigits lens (mixedDigits lens n) = n
  | [], n, _, hn => by
    rw [List.prod_nil] at hn
    interval_cases n
    rfl
  | L :: ls, n, hpos, hn => by
    have hL : 1 ≤ L := hpos L (by simp)
    have hls : ∀ x ∈ ls, 1 ≤ x := fun x hx => hpos x (by simp [hx])
    have hdiv : n / L < ls.prod := by
      rw [Nat.div_lt_iff_lt_mul (by omega)]
      calc n < (L :: ls).prod := hn
      _ = ls.prod * L := by rw [List.prod_cons]; ring
    rw [mixedDigits, unDigits, unDigits_mixedDigits ls (n / L) hls hdiv]
    exact Nat.mod_add_div n L

lemma mixedDigits_unDigits : ∀ (lens ds : List Nat),
    List.Forall₂ (· < ·) ds lens →
    mixedDigits lens (unDigits lens ds) = ds ∧ unDigits lens ds < lens.prod
  | [], ds, h => by
    cases h
    simp [mixedDigits, unDigits]
  | L :: ls, ds, h => by
    obtain ⟨d, ds', hd, htail, rfl⟩ := List.forall₂_cons_right_iff.1 h
    obtain ⟨ih1, ih2⟩ := mixedDigits_unDigits ls ds' htail
    have hL : 1 ≤ L := by omega
    constructor
    · rw [mixedDigits, unDigits]
      congr 1
      · rw [Nat.add_mul_mod_self_left, Nat.mod_eq_of_lt hd]
      · rw [Nat.add_mul_div_left _ _ (by omega : 0 < L), Nat.div_eq_of_lt hd,
          Nat.zero_add]
        exact ih1
    · rw [unDigits, List.prod_cons]
      have h5 : unDigits ls ds' ≤ ls.prod - 1 := by omega
      have h6 : L * unDigits ls ds' ≤ L * (ls.prod - 1) := Nat.mul_le_mul_left L h5
      have h9 : L * (ls.prod - 1) = L * ls.prod - L := by
        rw [Nat.mul_sub]
        omega
      have h10 : L ≤ L * ls.prod := Nat.le_mul_of_pos_right L (by omega)
      omega

/-- Facts about a bijection table `t.Perm (range t.length)`. -/
lemma table_nodup {t : List Nat} (ht : t.Perm (List.range t.length)) : t.Nodup :=
  ht.symm.nodup (List.nodup_range t.length)

lemma table_mem {t : List Nat} (ht : t.Perm (List.range t.length)) {a : Nat} :
    a ∈ t ↔ a < t.length := by
  rw [ht.mem_iff, List.mem_range]

lemma table_getD_lt {t : List Nat} (ht : t.Perm (List.range t.length)) {d : Nat}
    (hd : d < t.length) : t.getD d 0 < t.length := by
  rw [List.getD_eq_getElem t 0 hd]
  exact (table_mem ht).1 (List.getElem_mem hd)

/-- The position search of `Inverse::nth` recovers the digit: looking up the
entry at index `d` and then searching for that entry yields `d` again. -/
lemma findIdx_table_getD {t : List Nat} (ht : t.Perm (List.range t.length))
    {d : Nat} (hd : d < t.length) :
    t.findIdx (fun a => a == t.getD d 0) = d := by
  have hlt : t.findIdx (fun a => a == t.getD d 0) < t.length :=
    List.findIdx_lt_length.2 ⟨t.getD d 0, by
      rw [List.getD_eq_getElem t 0 hd]
      exact ⟨List.getElem_mem hd, by simp⟩⟩
  have hvv := @List.findIdx_getElem _ _ _ hlt
  have h6 : t[t.findIdx fun a => a == t.getD d 0] = t.getD d 0 := beq_iff_eq.1 hvv
  have h7 : t[t.findIdx fun a => a == t.getD d 0] = t[d] :=
    h6.trans (List.getD_eq_getElem t 0 hd)
  exact (@List.Nodup.getElem_inj_iff _ _ (table_nodup ht) _ hlt _ hd).1 h7

/-- The position search of `Inverse::nth` always succeeds on a bijection
table, and returns an index holding the searched value. -/
lemma findIdx_table_val {t : List Nat} (ht : t.Perm (List.range t.length))
    {v : Nat} (hv : v < t.length) :
    t.findIdx (fun a => a == v) < t.length ∧
    t.getD (t.findIdx fun a => a == v) 0 = v := by
  have hmem : v ∈ t := (table_mem ht).2 hv
  have hlt : t.findIdx (fun a => a == v) < t.length :=
    List.findIdx_lt_length.2 ⟨v, hmem, by simp⟩
  refine ⟨hlt, ?_⟩
  have hvv := @List.findIdx_getElem _ _ _ hlt
  rw [List.getD_eq_getElem t 0 hlt]
  exact beq_iff_eq.1 hvv

/-! ## `nth` and `Inverse.nth`: round-trip correctness -/

lemma PermWf.tables {P : RandomPermutation} (hwf : PermWf P) :
    ∀ t ∈ P.sub_perms, t.Perm (List.range t.length) ∧ 1 ≤ t.length := by
  intro t ht
  refine ⟨hwf.1 t ht, ?_⟩
  obtain ⟨fs, -, hel, hmap⟩ := hwf.2.1
  have h5 : t.length ∈ P.moduli := List.mem_map_of_mem _ ht
  rw [hmap] at h5
  obtain ⟨pe, hpe, hpow⟩ := List.mem_map.1 h5
  obtain ⟨hp, he⟩ := hel pe hpe
  have h6 : 1 ≤ pe.1 ^ pe.2 := Nat.one_le_pow _ _ hp.pos
  omega

lemma PermWf.moduli_pos {P : RandomPermutation} (hwf : PermWf P) :
    ∀ m ∈ P.moduli, 1 ≤ m := by
  intro m hm
  obtain ⟨fs, -, hel, hmap⟩ := hwf.2.1
  rw [hmap] at hm
  obtain ⟨pe, hpe, hpow⟩ := List.mem_map.1 hm
  obtain ⟨hp, -⟩ := hel pe hpe
  have h6 : 1 ≤ pe.1 ^ pe.2 := Nat.one_le_pow _ _ hp.pos
  omega

lemma PermWf.moduli_coprime {P : RandomPermutation} (hwf : PermWf P) :
    P.moduli.Pairwise Nat.Coprime := by
  obtain ⟨fs, hne, hel, hmap⟩ := hwf.2.1
  rw [hmap]
  exact factors_pow_coprime (fun pe hpe => (hel pe hpe).1) hne

lemma lookupDigits_forall₂ : ∀ (ts : List (List Nat)) (n : Nat),
    (∀ t ∈ ts, t.Perm (List.range t.length) ∧ 1 ≤ t.length) →
    List.Forall₂ (· < ·) (lookupDigits ts n) (ts.map List.length)
  | [], _, _ => by simp [lookupDigits]
  | t :: l, n, hwf => by
    obtain ⟨hperm, hlen⟩ := hwf t (by simp)
    rw [lookupDigits, List.map_cons]
    refine List.Forall₂.cons ?_ (lookupDigits_forall₂ l (n / t.length)
      fun u hu => hwf u (by simp [hu]))
    exact table_getD_lt hperm (Nat.mod_lt _ (by omega))

/-- `RandomPermutation::nth` on an in-range index of a well-formed
permutation: the CRT call succeeds and produces the unique value below
`num_points` matching all table lookups. -/
lemma nth_spec {P : RandomPermutation} (hwf : PermWf P)
    (h64 : P.num_points < 2 ^ 64) {n : Nat} (hn : n < P.num_points) :
    ∃ x, P.nth n = some x ∧ x < P.num_points ∧
      (∀ p ∈ (lookupDigits P.sub_perms n).zip P.moduli, x % p.2 = p.1) ∧
      (∀ y, y < P.num_points →
        (∀ p ∈ (lookupDigits P.sub_perms n).zip P.moduli, y % p.2 = p.1) → y = x) := by
  have hf2 := lookupDigits_forall₂ P.sub_perms n hwf.tables
  obtain ⟨hlen, hzip⟩ := List.forall₂_iff_zip.1 hf2
  obtain ⟨x, hcr, hxlt, hxmod, huniq, -⟩ :=
    @chinese_remainder_spec (lookupDigits P.sub_perms n) P.moduli hlen
      (fun p hp => hzip hp) hwf.moduli_pos hwf.moduli_coprime
      (by rw [hwf.2.2]; exact h64)
  rw [hwf.2.2] at hxlt huniq
  refine ⟨x, ?_, hxlt, hxmod, huniq⟩
  unfold RandomPermutation.nth
  rw [if_neg (by omega), remsGo_eq, List.nil_append]
  exact hcr

lemma inv_fold_eq : ∀ (ts : List (List Nat)) (v : Nat),
    ts.reverse.foldl
      (fun idx t => idx * t.length + t.findIdx fun a => a == v % t.length) 0
      = unDigits (ts.map List.length) (invPositions ts v)
  | [], _ => rfl
  | t :: l, v => by
    rw [List.reverse_cons, List.foldl_append, inv_fold_eq l v]
    simp only [List.foldl_cons, List.foldl_nil, invPositions, List.map_cons,
      unDigits]
    ring

lemma invPositions_forall₂ : ∀ (ts : List (List Nat)) (v : Nat),
    (∀ t ∈ ts, t.Perm (List.range t.length) ∧ 1 ≤ t.length) →
    List.Forall₂ (· < ·) (invPositions ts v) (ts.map List.length)
  | [], _, _ => by simp [invPositions]
  | t :: l, v, hwf => by
    obtain ⟨hperm, hlen⟩ := hwf t (by simp)
    rw [invPositions, List.map_cons, List.map_cons]
    refine List.Forall₂.cons ?_ ?_
    · exact (findIdx_table_val hperm (Nat.mod_lt _ (by omega))).1
    · exact invPositions_forall₂ l v fun u hu => hwf u (by simp [hu])

/-- `Inverse::nth` on an in-range value: its fold computes exactly the
mixed-radix recomposition of the per-table positions of `v`. -/
lemma inverse_nth_spec {P : RandomPermutation} (hwf : PermWf P)
    {v : Nat} (hv : v < P.num_points) :
    P.inverse.nth v = some (unDigits P.moduli (invPositions P.sub_perms v)) ∧
    unDigits P.moduli (invPositions P.sub_perms v) < P.num_points ∧
    mixedDigits P.moduli (unDigits P.moduli (invPositions P.sub_perms v))
      = invPositions P.sub_perms v := by
  have hf2 := invPositions_forall₂ P.sub_perms v hwf.tables
  obtain ⟨hdig, hlt⟩ := mixedDigits_unDigits P.moduli (invPositions P.sub_perms v) hf2
  refine ⟨?_, by rw [← hwf.2.2]; exact hlt, hdig⟩
  unfold Inverse.nth
  rw [if_neg (not_le.2 (show v < P.inverse.num_points from hv))]
  rw [inv_fold_eq]
  rfl

/-- The digits produced by `mixedDigits` at the recomposed position list of
`v` look up back to the residues of `v`. -/
lemma lookupDigits_of_digits : ∀ (ts : List (List Nat)) (u v : Nat),
    (∀ t ∈ ts, t.Perm (List.range t.length) ∧ 1 ≤ t.length) →
    mixedDigits (ts.map List.length) u = invPositions ts v →
    ∀ p ∈ (lookupDigits ts u).zip (ts.map List.length), v % p.2 = p.1
  | [], _, _, _, _ => by simp [lookupDigits]
  | t :: l, u, v, hwf, hdig => by
    obtain ⟨hperm, hlen⟩ := hwf t (by simp)
    rw [List.map_cons, mixedDigits, invPositions] at hdig
    simp only [List.map_cons] at hdig
    have hhead : u % t.length = t.findIdx fun a => a == v % t.length :=
      (List.cons_eq_cons.1 hdig).1
    have htail : mixedDigits (l.map List.length) (u / t.length)
        = invPositions l v := (List.cons_eq_cons.1 hdig).2
    intro p hp
    rw [lookupDigits, List.map_cons, List.zip_cons_cons] at hp
    rcases List.mem_cons.1 hp with h5 | h5
    · subst h5
      show v % t.length = t.getD (u % t.length) 0
      rw [hhead]
      exact (findIdx_table_val hperm (Nat.mod_lt _ (by omega))).2.symm
    · exact lookupDigits_of_digits l (u / t.length) v
        (fun x hx => hwf x (by simp [hx])) htail p h5

/-- The residues of the CRT output of `nth` recover the original digits
through the position search of `Inverse::nth`. -/
lemma invPositions_of_lookup : ∀ (ts : List (List Nat)) (n x : Nat),
    (∀ t ∈ ts, t.Perm (List.range t.length) ∧ 1 ≤ t.length) →
    (∀ p ∈ (lookupDigits ts n).zip (ts.map List.length), x % p.2 = p.1) →
    invPositions ts x = mixedDigits (ts.map List.length) n
  | [], _, _, _, _ => by simp [invPositions, mixedDigits]
  | t :: l, n, x, hwf, hmod => by
    obtain ⟨hperm, hlen⟩ := hwf t (by simp)
    have hd : n % t.length < t.length := Nat.mod_lt _ (by omega)
    have hhead : x % t.length = t.getD (n % t.length) 0 := by
      apply hmod (t.getD (n % t.length) 0, t.length)
      rw [lookupDigits, List.map_cons, List.zip_cons_cons]
      simp
    simp only [invPositions, List.map_cons, mixedDigits]
    congr 1
    · rw [hhead]
      exact findIdx_table_getD hperm hd
    · have h5 := invPositions_of_lookup l (n / t.length) x
        (fun u hu => hwf u (by simp [hu]))
        (fun p hp => hmod p (by
          rw [lookupDigits, List.map_cons, List.zip_cons_cons]
          exact List.mem_cons.2 (Or.inr hp)))
      simpa [invPositions] using h5

/-- Left round trip: `inverse.nth (nth i) = i` for in-range `i`. -/
lemma roundtrip_left {P : RandomPermutation} (hwf : PermWf P)
    (h64 : P.num_points < 2 ^ 64) {n : Nat} (hn : n < P.num_points) :
    ∃ x, P.nth n = some x ∧ x < P.num_points ∧ P.inverse.nth x = some n := by
  obtain ⟨x, hnth, hxlt, hxmod, -⟩ := nth_spec hwf h64 hn
  obtain ⟨hinv, hult, -⟩ := inverse_nth_spec hwf hxlt
  have hpos : invPositions P.sub_perms x = mixedDigits P.moduli n :=
    invPositions_of_lookup P.sub_perms n x hwf.tables hxmod
  have hmodprod : n < P.moduli.prod := by rw [hwf.2.2]; exact hn
  have hu : unDigits P.moduli (invPositions P.sub_perms x) = n := by
    rw [hpos]
    exact unDigits_mixedDigits P.moduli n hwf.moduli_pos hmodprod
  refine ⟨x, hnth, hxlt, ?_⟩
  rw [hinv, hu]

/-- Right round trip: `nth (inverse.nth v) = v` for in-range `v`. -/
lemma roundtrip_right {P : RandomPermutation} (hwf : PermWf P)
    (h64 : P.num_points < 2 ^ 64) {v : Nat} (hv : v < P.num_points) :
    ∃ u, P.inverse.nth v = some u ∧ u < P.num_points ∧ P.nth u = some v := by
  obtain ⟨hinv, hult, hdig⟩ := inverse_nth_spec hwf hv
  set u := unDigits P.moduli (invPositions P.sub_perms v) with hu
  obtain ⟨x, hnth, hxlt, hxmod, huniq⟩ := nth_spec hwf h64 hult
  have hvmod : ∀ p ∈ (lookupDigits P.sub_perms u).zip P.moduli, v % p.2 = p.1 :=
    lookupDigits_of_digits P.sub_perms u v hwf.tables hdig
  have hxv : v = x := huniq v hv hvmod
  exact ⟨u, hinv, hult, by rw [hnth, hxv]⟩

/-! ## Remaining structural helpers -/

lemma advance_spec (f : Nat → Option Nat) : ∀ j,
    (Permutation.iter f).advance j = ⟨f, j⟩
  | 0 => rfl
  | j + 1 => by
    have h5 := advance_spec f j
    show ((Permutation.iter f).advance j).next.2 = ⟨f, j + 1⟩
    rw [h5]
    rfl

lemma Composition.new_spec {ps : List RandomPermutation} {c : Composition}
    (h : Composition.new ps = some c) :
    c.perms = ps ∧ ∀ p ∈ ps, p.num_points = c.num_points := by
  unfold Composition.new at h
  cases ps with
  | nil => exact absurd h (by simp)
  | cons p0 rest =>
    simp only at h
    by_cases h5 : (p0 :: rest).all fun p => p.num_points == p0.num_points
    · rw [if_pos h5] at h
      have hc : c = ⟨p0 :: rest⟩ := by
        injection h with h6
        exact h6.symm
      subst hc
      refine ⟨rfl, ?_⟩
      intro p hp
      have h7 := List.all_eq_true.1 h5 p hp
      have h8 : p.num_points = p0.num_points := by simpa using h7
      simpa [Composition.num_points] using h8
    · rw [if_neg h5] at h
      exact absurd h (by simp)

/-! ## Claim theorems -/

/-- Claim C3: for equal-length remainder/modulus lists with every modulus at
least 1, pairwise coprime moduli, each remainder below its modulus, and the
product of the moduli representable in `u64`, `chinese_remainder` returns
`some x` where `x` is the unique value in `[0, M)` congruent to each
remainder modulo its modulus; and every `i128` intermediate (the partial
products `remainder * partial_product`, the full terms and the running sums)
stays inside `[0, 2^127)`, so the widened arithmetic never wraps and is
exact. -/
theorem claim_C3_chinese_remainder :
    ∀ rs ms : List Nat, rs.length = ms.length → (∀ m ∈ ms, 1 ≤ m) →
      ms.Pairwise Nat.Coprime → (∀ p ∈ rs.zip ms, p.1 < p.2) →
      ms.prod < 2 ^ 64 →
      ∃ x, chinese_remainder rs ms = some x ∧ x < ms.prod ∧
        (∀ p ∈ rs.zip ms, x % p.2 = p.1) ∧
        (∀ y, y < ms.prod → (∀ p ∈ rs.zip ms, y % p.2 = p.1) → y = x) ∧
        (∀ v ∈ crtIntermediates ((ms.prod : Nat) : Int) (rs.zip ms) 0,
          0 ≤ v ∧ v < 2 ^ 127) :=
  fun _ _ hlen hpos hcop hmem hM64 =>
    chinese_remainder_spec hlen hmem hpos hcop hM64

/-- Witness for C3 at the repository's own test vector
`chinese_remainder([2,3,2], [3,5,7]) = Some(23)`. -/
theorem claim_C3_witness :
    ∃ x, chinese_remainder [2, 3, 2] [3, 5, 7] = some x ∧ x < [3, 5, 7].prod ∧
      (∀ p ∈ [2, 3, 2].zip [3, 5, 7], x % p.2 = p.1) ∧
      (∀ y, y < [3, 5, 7].prod →
        (∀ p ∈ [2, 3, 2].zip [3, 5, 7], y % p.2 = p.1) → y = x) ∧
      (∀ v ∈ crtIntermediates ((([3, 5, 7] : List Nat).prod : Nat) : Int)
          ([2, 3, 2].zip [3, 5, 7]) 0, 0 ≤ v ∧ v < 2 ^ 127) :=
  claim_C3_chinese_remainder [2, 3, 2] [3, 5, 7] (by decide) (by decide)
    (by decide) (by decide) (by decide)

/-- Claim C4: for `1 ≤ n < 2^64`, `FactoredInteger::new` terminates and
succeeds exactly when every prime factor of `n` is below 256; on success the
factor pairs have strictly increasing prime bases, positive exponents, and
prime-power product `n`.  The two literal cases of the claim are included. -/
theorem claim_C4_factorization :
    (∀ n, 1 ≤ n → n < 2 ^ 64 →
      ∃ r, FactoredInteger.new n = some r ∧
        (r.isSome ↔ ∀ q, Nat.Prime q → q ∣ n → q < 256) ∧
        ∀ f, r = some f →
          (f.factors.map fun pe => pe.1 ^ pe.2).prod = n ∧
          f.factors.Pairwise (fun a b => a.1 < b.1) ∧
          ∀ pe ∈ f.factors, pe.1.Prime ∧ 1 ≤ pe.2) ∧
    FactoredInteger.new 14237396402848819200 = some (some ⟨[(2, 11), (3, 3),
      (5, 2), (7, 3), (11, 4), (13, 1), (19, 3), (23, 1)]⟩) ∧
    FactoredInteger.new 257 = some none := by
  refine ⟨?_, by decide, by decide⟩
  intro n h1 h64
  obtain ⟨r, hr⟩ := new_isSome h1 h64
  refine ⟨r, hr, ?_, ?_⟩
  · constructor
    · intro hsome
      obtain ⟨f, rfl⟩ := Option.isSome_iff_exists.1 hsome
      exact new_prime_bound (by rw [hr])
    · intro hall
      obtain ⟨f, hf⟩ := new_complete h1 h64 hall
      rw [hr] at hf
      injection hf with h5
      simp [h5]
  · intro f hrf
    subst hrf
    obtain ⟨hprod, hel, hpair⟩ := new_sound (by rw [hr])
    exact ⟨hprod, hpair, fun pe hpe => ⟨(hel pe hpe).1, (hel pe hpe).2.1⟩⟩

/-- Witness for C4 at `n = 12 = 2^2 * 3`. -/
theorem claim_C4_witness :
    ∃ r, FactoredInteger.new 12 = some r ∧
      (r.isSome ↔ ∀ q, Nat.Prime q → q ∣ 12 → q < 256) ∧
      ∀ f, r = some f →
        (f.factors.map fun pe => pe.1 ^ pe.2).prod = 12 ∧
        f.factors.Pairwise (fun a b => a.1 < b.1) ∧
        ∀ pe ∈ f.factors, pe.1.Prime ∧ 1 ≤ pe.2 :=
  claim_C4_factorization.1 12 (by decide) (by decide)

/-- Claim C8: a fresh iterator starts at index 0 with the permutation's
lookup function; after `j` advance steps the cursor is at `j`, the next
produced element is exactly `nth j` (so the sequence is `nth 0, nth 1, ...`,
ending the first time `nth` returns `none`), and the overridden skip-ahead
`Iterator::nth` with argument `k` moves the cursor from `j` to `j + k` and
performs the single evaluation `nth (j + k)`. -/
theorem claim_C8_iterator :
    ∀ f : Nat → Option Nat,
      ((Permutation.iter f).idx = 0 ∧ (Permutation.iter f).nthFun = f) ∧
      (∀ j, ((Permutation.iter f).advance j).idx = j) ∧
      (∀ j, ((Permutation.iter f).advance j).next.1 = f j ∧
        ((Permutation.iter f).advance j).next.2.idx = j + 1) ∧
      (∀ j k, ((Permutation.iter f).advance j).nthSkip k
        = (f (j + k), ⟨f, j + k⟩)) := by
  intro f
  refine ⟨⟨rfl, rfl⟩, ?_, ?_, ?_⟩
  · intro j
    rw [advance_spec]
  · intro j
    rw [advance_spec]
    exact ⟨rfl, rfl⟩
  · intro j k
    rw [advance_spec]
    rfl

/-- Claim C10: on the `u64` domain both `FactoredInteger::new` and
`RandomPermutation::with_rng` terminate for every `n ≥ 1` (the stripped
residual strictly decreases and the odd-divisor loop is bounded), while for
`n = 0` the constructor does not return normally: the trial-division loop
guard `0 % q == 0` holds for every divisor and every iteration budget, so
the model yields `none` (in the source, the `n = 0` run also shifts by
`trailing_zeros() = 64` before hanging in the first odd-divisor loop). -/
theorem claim_C10_termination :
    (∀ n, 1 ≤ n → n < 2 ^ 64 → ∃ res, FactoredInteger.new n = some res) ∧
    (∀ (n : Nat) (g : Nat → Nat), 1 ≤ n → n < 2 ^ 64 →
      ∃ r, RandomPermutation.with_rng n g = some r) ∧
    (∀ q fuel, stripGo q fuel 0 = none) ∧
    FactoredInteger.new 0 = none := by
  refine ⟨fun n h1 h64 => new_isSome h1 h64, ?_,
    fun q fuel => stripGo_never_zero q fuel, by decide⟩
  intro n g h1 h64
  obtain ⟨res, hres⟩ := new_isSome h1 h64
  cases res with
  | none =>
    refine ⟨none, ?_⟩
    unfold RandomPermutation.with_rng
    rw [hres]
  | some f =>
    refine ⟨some ⟨n, buildSubs g f.factors.length
      ((fisherYates g 0 (List.range f.factors.length)).map fun i =>
        (f.factors.getD i (0, 0)).1 ^ (f.factors.getD i (0, 0)).2)⟩, ?_⟩
    unfold RandomPermutation.with_rng
    rw [hres]

/-- Witness for C10 at `n = 12` and divisor 3. -/
theorem claim_C10_witness :
    (∃ res, FactoredInteger.new 12 = some res) ∧
    (∃ r, RandomPermutation.with_rng 12 gZero = some r) :=
  ⟨claim_C10_termination.1 12 (by decide) (by decide),
   claim_C10_termination.2.1 12 gZero (by decide) (by decide)⟩

/-- Claim C1: for every permutation built by `with_rng(n, rng)` with
`n ≥ 1` (on the `u64` domain), `nth` restricted to `[0, n)` is a bijection
onto `[0, n)`: every in-range index yields `some` value in range, distinct
in-range indices yield distinct values, and every value in `[0, n)` is
attained by exactly one index. -/
theorem claim_C1_bijection :
    ∀ (n : Nat) (g : Nat → Nat) (P : RandomPermutation),
      RandomPermutation.with_rng n g = some (some P) → 1 ≤ n → n < 2 ^ 64 →
      (∀ i, i < n → ∃ v, P.nth i = some v ∧ v < n) ∧
      (∀ i j vi vj, i < n → j < n → P.nth i = some vi → P.nth j = some vj →
        vi = vj → i = j) ∧
      (∀ v, v < n → ∃ i, i < n ∧ P.nth i = some v ∧
        ∀ j, j < n → P.nth j = some v → j = i) := by
  intro n g P hcons h1 h64
  obtain ⟨hwf, hnp⟩ := with_rng_wf hcons
  subst hnp
  have hinj : ∀ i j vi vj, i < P.num_points → j < P.num_points →
      P.nth i = some vi → P.nth j = some vj → vi = vj → i = j := by
    intro i j vi vj hi hj hni hnj hv
    obtain ⟨x, hx, hxlt, hxi⟩ := roundtrip_left hwf h64 hi
    obtain ⟨y, hy, hylt, hyj⟩ := roundtrip_left hwf h64 hj
    rw [hni] at hx
    rw [hnj] at hy
    obtain rfl : vi = x := by injection hx
    obtain rfl : vj = y := by injection hy
    subst hv
    rw [hxi] at hyj
    exact Option.some.inj hyj
  refine ⟨?_, hinj, ?_⟩
  · intro i hi
    obtain ⟨x, hx, hlt, -, -⟩ := nth_spec hwf h64 hi
    exact ⟨x, hx, hlt⟩
  · intro v hv
    obtain ⟨u, hinv, hult, hnthu⟩ := roundtrip_right hwf h64 hv
    exact ⟨u, hult, hnthu, fun j hj hnj => hinj j u v v hj hult hnj hnthu rfl⟩

/-- Witness for C1 at `with_rng 12 gZero`. -/
theorem claim_C1_witness :
    (∀ i, i < 12 → ∃ v, P12.nth i = some v ∧ v < 12) ∧
    (∀ i j vi vj, i < 12 → j < 12 → P12.nth i = some vi → P12.nth j = some vj →
      vi = vj → i = j) ∧
    (∀ v, v < 12 → ∃ i, i < 12 ∧ P12.nth i = some v ∧
      ∀ j, j < 12 → P12.nth j = some v → j = i) :=
  claim_C1_bijection 12 gZero P12 (by decide) (by decide) (by decide)

/-- Claim C2: for every permutation from `with_rng` and its inverse view,
`inverse.nth (nth i) = some i` for every in-range `i` (in particular
`inverse.nth` is defined at `nth i`), and `nth (inverse.nth v) = some v` for
every in-range `v`. -/
theorem claim_C2_roundtrip :
    ∀ (n : Nat) (g : Nat → Nat) (P : RandomPermutation),
      RandomPermutation.with_rng n g = some (some P) → n < 2 ^ 64 →
      (∀ i, i < P.num_points →
        ∃ v, P.nth i = some v ∧ P.inverse.nth v = some i) ∧
      (∀ v, v < P.num_points →
        ∃ u, P.inverse.nth v = some u ∧ P.nth u = some v) := by
  intro n g P hcons h64
  obtain ⟨hwf, hnp⟩ := with_rng_wf hcons
  subst hnp
  constructor
  · intro i hi
    obtain ⟨x, hx, -, hxi⟩ := roundtrip_left hwf h64 hi
    exact ⟨x, hx, hxi⟩
  · intro v hv
    obtain ⟨u, hinv, -, hnthu⟩ := roundtrip_right hwf h64 hv
    exact ⟨u, hinv, hnthu⟩

/-- Witness for C2 at `with_rng 12 gZero`. -/
theorem claim_C2_witness :
    (∀ i, i < P12.num_points →
      ∃ v, P12.nth i = some v ∧ P12.inverse.nth v = some i) ∧
    (∀ v, v < P12.num_points →
      ∃ u, P12.inverse.nth v = some u ∧ P12.nth u = some v) :=
  claim_C2_roundtrip 12 gZero P12 (by decide) (by decide)

/-- Claim C5: every permutation from `with_rng` satisfies the structural
invariant: each sub-permutation is a bijection table on `[0, len)` (a
permutation of `range len`, so each value occurs exactly once), the lengths
are powers of pairwise-distinct primes and hence pairwise coprime, and their
product equals `num_points`, which is the constructed `n`.  The value is
immutable in the model (all operations are pure), so every subsequent
operation preserves this invariant. -/
theorem claim_C5_invariant :
    ∀ (n : Nat) (g : Nat → Nat) (P : RandomPermutation),
      RandomPermutation.with_rng n g = some (some P) →
      (∀ t ∈ P.sub_perms, t.Perm (List.range t.length)) ∧
      (∃ fs : List (Nat × Nat), fs.Pairwise (fun a b => a.1 ≠ b.1) ∧
        (∀ pe ∈ fs, pe.1.Prime ∧ 1 ≤ pe.2) ∧
        P.moduli = fs.map fun pe => pe.1 ^ pe.2) ∧
      P.moduli.Pairwise Nat.Coprime ∧
      P.moduli.prod = P.num_points ∧ P.num_points = n := by
  intro n g P hcons
  obtain ⟨hwf, hnp⟩ := with_rng_wf hcons
  exact ⟨hwf.1, hwf.2.1, hwf.moduli_coprime, hwf.2.2, hnp⟩

/-- Witness for C5 at `with_rng 12 gZero`. -/
theorem claim_C5_witness :
    (∀ t ∈ P12.sub_perms, t.Perm (List.range t.length)) ∧
    (∃ fs : List (Nat × Nat), fs.Pairwise (fun a b => a.1 ≠ b.1) ∧
      (∀ pe ∈ fs, pe.1.Prime ∧ 1 ≤ pe.2) ∧
      P12.moduli = fs.map fun pe => pe.1 ^ pe.2) ∧
    P12.moduli.Pairwise Nat.Coprime ∧
    P12.moduli.prod = P12.num_points ∧ P12.num_points = 12 :=
  claim_C5_invariant 12 gZero P12 (by decide)

/-- Claim C6: for a composition built from `[p1, p2]` with matching
`num_points`, `nth i` is `p2.nth` applied to the value of `p1.nth i` (in
`Option.bind` form, for every index); and in general the composition
threads the index through each member permutation's `nth` in sequence
order, short-circuiting to `none` as soon as any step returns `none`
(the cons law and explicit short-circuit below). -/
theorem claim_C6_composition :
    ∀ (p1 p2 : RandomPermutation) (c : Composition),
      Composition.new [p1, p2] = some c →
      (∀ i, c.nth i = (p1.nth i).bind fun m => p2.nth m) ∧
      (∀ i, p1.nth i = none → c.nth i = none) ∧
      (∀ (c2 : Composition) (p : RandomPermutation)
        (rest : List RandomPermutation) (j : Nat), c2.perms = p :: rest →
        c2.nth j = (p.nth j).bind fun m => Composition.nth ⟨rest⟩ m) := by
  intro p1 p2 c hnew
  obtain ⟨hperms, -⟩ := Composition.new_spec hnew
  have hcons : ∀ (c2 : Composition) (p : RandomPermutation)
      (rest : List RandomPermutation) (j : Nat), c2.perms = p :: rest →
      c2.nth j = (p.nth j).bind fun m => Composition.nth ⟨rest⟩ m := by
    intro c2 p rest j hp
    unfold Composition.nth
    rw [hp, List.foldlM_cons]
    cases p.nth j <;> rfl
  have hpair : ∀ i, c.nth i = (p1.nth i).bind fun m => p2.nth m := by
    intro i
    rw [hcons c p1 [p2] i hperms]
    cases p1.nth i with
    | none => rfl
    | some m =>
      show Composition.nth ⟨[p2]⟩ m = p2.nth m
      rw [hcons ⟨[p2]⟩ p2 [] m rfl]
      cases p2.nth m <;> rfl
  refine ⟨hpair, ?_, hcons⟩
  intro i h5
  rw [hpair, h5]
  rfl

/-- Witness for C6 at the composition of `P12` with itself. -/
theorem claim_C6_witness :
    (∀ i, (Composition.mk [P12, P12]).nth i
      = (P12.nth i).bind fun m => P12.nth m) ∧
    (∀ i, P12.nth i = none → (Composition.mk [P12, P12]).nth i = none) ∧
    (∀ (c2 : Composition) (p : RandomPermutation)
      (rest : List RandomPermutation) (j : Nat), c2.perms = p :: rest →
      c2.nth j = (p.nth j).bind fun m => Composition.nth ⟨rest⟩ m) :=
  claim_C6_composition P12 P12 ⟨[P12, P12]⟩ (by decide)

/-- Claim C7: on every variant, any argument at or above `num_points`
(up to and including `u64::MAX`, since the bound is unconstrained) makes
`nth` return `none` via its explicit range guard rather than reaching any
failing operation. -/
theorem claim_C7_domain :
    ∀ (P : RandomPermutation) (idx : Nat),
      (P.num_points ≤ idx → P.nth idx = none) ∧
      (P.num_points ≤ idx → P.inverse.nth idx = none) ∧
      (∀ (ps : List RandomPermutation) (c : Composition),
        Composition.new ps = some c → c.num_points ≤ idx →
        c.nth idx = none) := by
  intro P idx
  refine ⟨fun h => ?_, fun h => ?_, ?_⟩
  · unfold RandomPermutation.nth
    rw [if_pos h]
  · unfold Inverse.nth
    rw [if_pos (show P.inverse.num_points ≤ idx from h)]
  · intro ps c hnew hle
    obtain ⟨hperms, hall⟩ := Composition.new_spec hnew
    cases ps with
    | nil => simp [Composition.new] at hnew
    | cons p0 rest =>
      have h0 : p0.num_points = c.num_points := hall p0 (by simp)
      unfold Composition.nth
      rw [hperms, List.foldlM_cons]
      have h5 : p0.nth idx = none := by
        unfold RandomPermutation.nth
        rw [if_pos (by omega)]
      rw [h5]
      rfl

/-- Witness for C7 at `P12` and the out-of-range indices 12 and `u64::MAX`. -/
theorem claim_C7_witness :
    P12.nth 12 = none ∧ P12.inverse.nth (2 ^ 64 - 1) = none ∧
    (Composition.mk [P12, P12]).nth 12 = none :=
  ⟨(claim_C7_domain P12 12).1 (by decide),
   (claim_C7_domain P12 (2 ^ 64 - 1)).2.1 (by norm_num [P12]),
   (claim_C7_domain P12 12).2.2 [P12, P12] ⟨[P12, P12]⟩ (by decide) (by decide)⟩

/-- Claim C9: for permutations built by `with_rng` and in-range arguments,
the two internal failure branches are unreachable: the `chinese_remainder`
call inside `nth` always returns `some` (its unwrap cannot panic), and the
position search inside `Inverse::nth` always finds `n % len` in each
sub-permutation table (its unwrap cannot panic). -/
theorem claim_C9_unwrap_safe :
    ∀ (n : Nat) (g : Nat → Nat) (P : RandomPermutation),
      RandomPermutation.with_rng n g = some (some P) → n < 2 ^ 64 →
      (∀ i, i < P.num_points →
        (chinese_remainder (remsGo P.sub_perms [] i).1 P.moduli).isSome) ∧
      (∀ v, v < P.num_points → ∀ t ∈ P.sub_perms, v % t.length ∈ t) := by
  intro n g P hcons h64
  obtain ⟨hwf, hnp⟩ := with_rng_wf hcons
  subst hnp
  constructor
  · intro i hi
    obtain ⟨x, hx, -, -, -⟩ := nth_spec hwf h64 hi
    have h5 : P.nth i = chinese_remainder (remsGo P.sub_perms [] i).1 P.moduli := by
      unfold RandomPermutation.nth
      rw [if_neg (by omega)]
    rw [← h5, hx]
    rfl
  · intro v _ t ht
    obtain ⟨hperm, hlen⟩ := hwf.tables t ht
    exact (table_mem hperm).2 (Nat.mod_lt _ (by omega))

/-- Witness for C9 at `with_rng 12 gZero`, index 5. -/
theorem claim_C9_witness :
    (chinese_remainder (remsGo P12.sub_perms [] 5).1 P12.moduli).isSome ∧
    (5 % 4 ∈ ([0, 1, 2, 3] : List Nat)) :=
  ⟨(claim_C9_unwrap_safe 12 gZero P12 (by decide) (by decide)).1 5 (by decide),
   (claim_C9_unwrap_safe 12 gZero P12 (by decide) (by decide)).2 5 (by decide)
     [0, 1, 2, 3] (by decide)⟩

end RandpermCrt
